import Mathlib

/-!
Shallow embedding of the governance-explorer reporting core
(`src/api.py`, `src/transforms.py`, `src/ui/tabs_history.py`).

The Python source manipulates loosely-typed JSON-like values (nested dicts
and lists).  We model those values with the inductive type `Val` below and
give Python's dynamic operations their exact semantics:

* `Val.truthy` is Python truthiness (`None`, `""`, `0`, `[]`, `{ }`, `False`
  are falsy);
* `Val.get` / `Val.getD` model `d.get(k)` / `d.get(k, default)`; applied to a
  non-dict they raise (`AttributeError`), which the embedding represents in
  the error monad `PyM` (`Except Unit`).  Note that `d.get(k, default)`
  returns the default only when the key is absent: a key that is present
  with value `None` yields `None`, not the default — this detail is load
  bearing for the totality claims below;
* `Val.iter` models `for x in v`: lists yield their elements, strings yield
  their one-character substrings, dicts yield their keys, everything else
  raises (`TypeError`);
* `Val.pyEq` models `==` on JSON scalars exactly (including `True == 1`).
  Model dicts are association lists and are compared pointwise in order;
  Python compares dicts as key-value sets, but the embedded code only ever
  compares scalar name fields, so the difference is unreachable here;
* `Val.pyStr` models `str(...)`: exact on scalars; container rendering
  follows Python's repr shape (string escaping inside reprs is not
  reproduced; no embedded code path inspects the rendering of containers).

Timestamps: the source parses timestamps with `pandas.to_datetime(val,
utc=True)`.  Scalar `pd.Timestamp` values form a total order with a least
element `pd.Timestamp.min`; we model instants as `Nat` (order embedding
pandas timestamps with `Timestamp.min ↦ 0`).  `to_datetime` does not only
return scalar timestamps, however: on list-like input it returns a
`DatetimeIndex`, and on inputs such as the string `"NaT"` it returns
`pd.NaT` — and `parse_dt` passes both through.  The type `Pd` below models
the three possible non-raising outcomes (`ts`/`nat`/`vec`), and the parser
itself is abstracted as a parameter `P : Val → Option Pd` (`none` models
`pd.to_datetime` raising, which `parse_dt` catches and turns into `None`);
every theorem is universally quantified over `P`.  The downstream
semantics of non-scalar results are modelled faithfully: `bool(pd.NaT)`
and `bool(Timestamp)` are `True` while `bool(DatetimeIndex)` raises
(`Pd.pyBool`); order comparisons against `NaT` are `False`, and order
comparisons involving a `DatetimeIndex` produce a numpy array whose truth
test succeeds only when it has exactly one element (`Pd.pyLt`, `Pd.pyGt`,
`ndarrayBool`).  Sorting and `max` are therefore modelled monadically;
Python's sort output is only specified when the key comparison is a
strict weak order — on other inputs CPython's result is
algorithm-dependent, and the embedding's binary insertion agrees with
CPython on every list of length ≤ 2, the only non-weak-order cases this
development evaluates.
-/

namespace GovExplorer

inductive Val where
  | null : Val
  | bool : Bool → Val
  | int : Int → Val
  | str : String → Val
  | list : List Val → Val
  | dict : List (String × Val) → Val

/-- Python truthiness of a JSON value. -/
def Val.truthy : Val → Bool
  | .null => false
  | .bool b => b
  | .int n => n != 0
  | .str s => s != ""
  | .list xs => !xs.isEmpty
  | .dict kvs => !kvs.isEmpty

def Val.isDict : Val → Bool
  | .dict _ => true
  | _ => false

mutual

/-- Python `==` on JSON values (scalars exact; containers pointwise, see
the header comment). -/
def Val.pyEq : Val → Val → Bool
  | .null, .null => true
  | .bool a, .bool b => a == b
  | .bool a, .int n => (if a then (1 : Int) else 0) == n
  | .int n, .bool b => n == (if b then (1 : Int) else 0)
  | .int a, .int b => a == b
  | .str a, .str b => a == b
  | .list xs, .list ys => Val.pyEqList xs ys
  | .dict xs, .dict ys => Val.pyEqKVs xs ys
  | _, _ => false

def Val.pyEqList : List Val → List Val → Bool
  | [], [] => true
  | x :: xs, y :: ys => Val.pyEq x y && Val.pyEqList xs ys
  | _, _ => false

def Val.pyEqKVs : List (String × Val) → List (String × Val) → Bool
  | [], [] => true
  | (k1, v1) :: r1, (k2, v2) :: r2 => k1 == k2 && Val.pyEq v1 v2 && Val.pyEqKVs r1 r2
  | _, _ => false

end

mutual

/-- Python `repr(...)` of a JSON value (scalars exact, containers in
Python's repr shape; string escaping not reproduced). -/
def Val.pyRepr : Val → String
  | .null => "None"
  | .bool b => if b then "True" else "False"
  | .int n => toString n
  | .str s => "\x27" ++ s ++ "\x27"
  | .list xs => "[" ++ Val.pyReprList xs ++ "]"
  | .dict kvs => "\x7b" ++ Val.pyReprKVs kvs ++ "\x7d"

def Val.pyReprList : List Val → String
  | [] => ""
  | [x] => Val.pyRepr x
  | x :: rest => Val.pyRepr x ++ ", " ++ Val.pyReprList rest

def Val.pyReprKVs : List (String × Val) → String
  | [] => ""
  | [(k, v)] => "\x27" ++ k ++ "\x27: " ++ Val.pyRepr v
  | (k, v) :: rest => "\x27" ++ k ++ "\x27: " ++ Val.pyRepr v ++ ", " ++ Val.pyReprKVs rest

end

/-- Python `str(...)`. -/
def Val.pyStr : Val → String
  | .str s => s
  | v => v.pyRepr

/-- Python `a or b` (returns `a` when truthy, else `b`). -/
def Val.orElse (a b : Val) : Val := if a.truthy then a else b

/-- The embedding's error monad: `Except.error ()` stands for a raised
Python exception. -/
abbrev PyM (α : Type) := Except Unit α

/-- Python `d.get(k)`: `None` default when the key is absent; raises
(`AttributeError`) on a non-dict receiver. -/
def Val.get : Val → String → PyM Val
  | .dict kvs, k => .ok ((kvs.lookup k).getD .null)
  | _, _ => .error ()

/-- Python `d.get(k, default)`: the default applies only when the key is absent
(a key present with value `None` yields `None`); raises on a non-dict
receiver. -/
def Val.getD : Val → String → Val → PyM Val
  | .dict kvs, k, d => .ok ((kvs.lookup k).getD d)
  | _, _, _ => .error ()

/-- Python `for x in v`: lists yield elements, strings yield one-character
substrings, dicts yield their keys; anything else raises (`TypeError`). -/
def Val.iter : Val → PyM (List Val)
  | .list xs => .ok xs
  | .str s => .ok (s.toList.map (fun c => .str (String.mk [c])))
  | .dict kvs => .ok (kvs.map (fun kv => .str kv.1))
  | _ => .error ()

/-- Python `v[0]`: first element of a list or string; raises otherwise
(`IndexError` / `TypeError`). -/
def Val.index0 : Val → PyM Val
  | .list (x :: _) => .ok x
  | .str s =>
    match s.toList with
    | c :: _ => .ok (.str (String.mk [c]))
    | [] => .error ()
  | _ => .error ()

/-- Total spec-side field accessor: the value stored under `k` when `v` is
a dict holding `k`, else `null`.  On dicts this agrees with `Val.get`. -/
def Val.field (v : Val) (k : String) : Val :=
  match v with
  | .dict kvs => (kvs.lookup k).getD .null
  | _ => .null

/-- Total spec-side field accessor distinguishing an absent key (`none`)
from a key present with value `null` — the distinction `dict.get(k, d)`
makes. -/
def Val.fieldOpt (v : Val) (k : String) : Option Val :=
  match v with
  | .dict kvs => kvs.lookup k
  | _ => none

/-! ## `src/transforms.py` -/

/-- A non-raising result of `pd.to_datetime(val, utc=True)`, as returned
by `parse_dt`:

* `ts t` — a scalar tz-aware `pd.Timestamp` (instants as `Nat`,
  `Timestamp.min ↦ 0`);
* `nat` — `pd.NaT` (returned e.g. for the string `"NaT"`; it is not a
  `pd.Timestamp` instance, so `parse_dt`'s `isinstance` guard skips it
  and it flows out);
* `vec ts` — a `DatetimeIndex` holding the given instants (returned for
  list-like input; likewise flows out). -/
inductive Pd where
  | ts (t : Nat)
  | nat
  | vec (ts : List Nat)

/-- The truth test of a numpy comparison result: a one-element array
converts to its element, anything else raises
(`ValueError: The truth value of an array ... is ambiguous`). -/
def ndarrayBool : List Bool → PyM Bool
  | [b] => .ok b
  | _ => .error ()

/-- Python `a < b` on `to_datetime` results, as consumed by `sorted` /
`list.sort`: scalar timestamps compare by instant; every order comparison
against `NaT` is `False`; a comparison involving a `DatetimeIndex` is
elementwise and yields an array, whose truth test goes through
`ndarrayBool`. -/
def Pd.pyLt : Pd → Pd → PyM Bool
  | .ts a, .ts b => .ok (decide (a < b))
  | .ts _, .nat => .ok false
  | .nat, .ts _ => .ok false
  | .nat, .nat => .ok false
  | .vec xs, .ts b => ndarrayBool (xs.map (fun a => decide (a < b)))
  | .ts a, .vec ys => ndarrayBool (ys.map (fun b => decide (a < b)))
  | .vec xs, .nat => ndarrayBool (xs.map (fun _ => false))
  | .nat, .vec ys => ndarrayBool (ys.map (fun _ => false))
  | .vec xs, .vec ys =>
    if xs.length = ys.length then
      ndarrayBool ((xs.zip ys).map (fun p => decide (p.1 < p.2)))
    else .error ()

/-- Python `a > b` on `to_datetime` results (used by `max`); same rules
as `Pd.pyLt` with the comparison flipped. -/
def Pd.pyGt : Pd → Pd → PyM Bool
  | .ts a, .ts b => .ok (decide (b < a))
  | .ts _, .nat => .ok false
  | .nat, .ts _ => .ok false
  | .nat, .nat => .ok false
  | .vec xs, .ts b => ndarrayBool (xs.map (fun a => decide (b < a)))
  | .ts a, .vec ys => ndarrayBool (ys.map (fun b => decide (b < a)))
  | .vec xs, .nat => ndarrayBool (xs.map (fun _ => false))
  | .nat, .vec ys => ndarrayBool (ys.map (fun _ => false))
  | .vec xs, .vec ys =>
    if xs.length = ys.length then
      ndarrayBool ((xs.zip ys).map (fun p => decide (p.2 < p.1)))
    else .error ()

/-- Python `bool(...)` of a `to_datetime` result: `Timestamp` and `NaT`
are plain truthy objects (neither defines `__bool__`), while
`bool(DatetimeIndex)` raises unconditionally
(`ValueError: The truth value of a DatetimeIndex is ambiguous`) — unlike
a raw numpy array, pandas index objects refuse the truth test at every
length. -/
def Pd.pyBool : Pd → PyM Bool
  | .ts _ => .ok true
  | .nat => .ok true
  | .vec _ => .error ()

/-- The loop of Python's builtin `max`: keep the current best unless
`x > best`. -/
def pyMaxGo (best : Pd) : List Pd → PyM Pd
  | [] => .ok best
  | c :: rest => do
    let b ← Pd.pyGt c best
    pyMaxGo (if b then c else best) rest

/-- Embeds `parse_dt(val)` (transforms.py lines 6-14): `None` on `None` or `""`,
otherwise the result of `pd.to_datetime(val, utc=True)`, with any exception
caught and turned into `None`.  The pandas parser is the abstract parameter
`P` (`none` = raised); a non-scalar result (`NaT`, `DatetimeIndex`) is not
caught by anything and is returned as-is — the `isinstance` guard on the
`tz_localize` branch only matches scalar timestamps, and that branch is a
no-op in the model because model instants are already absolute. -/
def parse_dt (P : Val → Option Pd) : Val → Option Pd
  | .null => none
  | v => if v.pyEq (.str "") then none else P v

/-- Loop body of `order_stages_like_humans` (transforms.py lines 16-21):
`seen` is the set of names already emitted; a name is appended when it is
truthy (non-empty) and not yet seen. -/
def oslu_aux (seen : List String) : List String → List String
  | [] => []
  | n :: rest =>
    if n ≠ "" ∧ n ∉ seen then n :: oslu_aux (n :: seen) rest
    else oslu_aux seen rest

/-- Embeds `order_stages_like_humans(names)` (transforms.py lines 16-21). -/
def order_stages_like_humans (names : List String) : List String :=
  oslu_aux [] names

/-- Shared loop of `stage_assignee_for_name` (transforms.py lines 24-29)
and `current_stage_assignee` (lines 40-44); the two Python loops are
textually identical up to the comparison target.  For each entry `s`:
`nm = (s.get("stage") or \x7b\x7d).get("name")`; on match,
`a = s.get("assignee") or \x7b\x7d; return a.get("name") or "Unassigned"`. -/
def assignee_scan (target : Val) : List Val → PyM Val
  | [] => .ok (.str "Unassigned")
  | s :: rest => do
    let st ← s.get "stage"
    let nm ← (st.orElse (.dict [])).get "name"
    if nm.pyEq target then
      let a0 ← s.get "assignee"
      let anm ← (a0.orElse (.dict [])).get "name"
      return anm.orElse (.str "Unassigned")
    else assignee_scan target rest

/-- Embeds `stage_assignee_for_name(stages, stage_name)` (transforms.py lines
23-29). -/
def stage_assignee_for_name (stages : Val) (stage_name : String) : PyM Val := do
  let ss ← stages.iter
  assignee_scan (.str stage_name) ss

/-- Embeds `current_stage_assignee(bundle)` (transforms.py lines 38-44):
`target = bundle.get("stage")`, then the same scan over
`bundle.get("stages", [])`. -/
def current_stage_assignee (bundle : Val) : PyM Val := do
  let target ← bundle.get "stage"
  let sv ← bundle.getD "stages" (.list [])
  let ss ← sv.iter
  assignee_scan target ss

/-- Embeds `compute_last_updated(bundle)` (transforms.py lines 31-36): parse the
bundle's `createdAt` and every attachment's `createdAt`, drop the `None`
results (`NaT` and `DatetimeIndex` results are **not** `None` and stay),
and return `max(cands)` (or `None` when the list is empty).  Note
`bundle.get("attachments", [])` yields `None` — not the default — when the
key is present with value `None`, and iterating `None` raises. -/
def compute_last_updated (P : Val → Option Pd) (bundle : Val) : PyM (Option Pd) := do
  let c0 ← bundle.get "createdAt"
  let av ← bundle.getD "attachments" (.list [])
  let atts ← av.iter
  let attVals ← atts.mapM (fun att => att.get "createdAt")
  let cands := (parse_dt P c0 :: attVals.map (parse_dt P)).filterMap id
  match cands with
  | [] => return none
  | c :: rest => do
    let m ← pyMaxGo c rest
    return some m

/-- Embeds `days_in_current_stage(bundle)` (transforms.py lines 46-49): `-1` when
`compute_last_updated` yields nothing.  Otherwise the source raises: when
the value is a `DatetimeIndex`, already at `if not ts:` (its truth test
raises); when it is a `Timestamp` or `NaT` (both truthy), at line 49,
which evaluates `pd.Timestamp.utcnow().tz_localize("UTC")` — but
`Timestamp.utcnow()` is already tz-aware (UTC), and `tz_localize` on a
tz-aware timestamp raises
`TypeError("Already tz-aware, use tz_convert to convert.")`. -/
def days_in_current_stage (P : Val → Option Pd) (bundle : Val) : PyM Int := do
  let ts ← compute_last_updated P bundle
  match ts with
  | none => return (-1)
  | some _ => .error ()

/-- Sort key of `safe_branch_from_attachments` (transforms.py lines 54-56):
the parse result when it `is not None` (so `NaT` and `DatetimeIndex`
results are kept as keys), else `pd.Timestamp.min.tz_localize("UTC")`
(model value `Pd.ts 0`). -/
def sb_key (P : Val → Option Pd) (a : Val) : PyM Pd := do
  let c ← a.get "createdAt"
  return (parse_dt P c).getD (.ts 0)

/-- Python's `sorted(..., key=k, reverse=True)` / `list.sort` drives all
placement decisions with `<` on the precomputed keys.  `pyInsertM` walks
`x` past every element `y` that must stay strictly before it in the
descending order — exactly when `key x < key y` — and places `x` before
the first tie, so earlier input elements precede later ones among equal
keys (stability); comparisons run in the `PyM` monad, so a raising key
comparison makes the whole sort raise, as in CPython. -/
def pyInsertM (lt : α → α → PyM Bool) (x : α) : List α → PyM (List α)
  | [] => .ok [x]
  | y :: ys => do
    let b ← lt x y
    if b then
      let tail ← pyInsertM lt x ys
      return y :: tail
    else
      return x :: y :: ys

/-- Monadic stable descending sort by `lt` (see `pyInsertM`).  On a strict
weak order this computes the unique stable descending order, which is what
CPython's timsort returns; and it raises whenever some key comparison
raises (any list of two or more elements exercises every element's key at
least once, in both algorithms). -/
def pySortedM (lt : α → α → PyM Bool) : List α → PyM (List α)
  | [] => .ok []
  | x :: xs => do
    let s ← pySortedM lt xs
    pyInsertM lt x s

/-- The key comparison of the decorated sorts: Python `<` on the `Pd`
keys. -/
def pairLt (x y : Pd × Val) : PyM Bool := Pd.pyLt x.1 y.1

/-- Pure stable insertion, the scalar-key special case of `pyInsertM`:
walk past `y` exactly when `le y x && !le x y`, i.e. `y` strictly before
`x`. -/
def pyInsert (le : α → α → Bool) (x : α) : List α → List α
  | [] => [x]
  | y :: ys => if le y x && !le x y then y :: pyInsert le x ys else x :: y :: ys

/-- Pure stable sort by `le` (see `pyInsert`); `pySortedM` over
all-scalar keys reduces to it. -/
def pySorted (le : α → α → Bool) : List α → List α
  | [] => []
  | x :: xs => pyInsert le x (pySorted le xs)

/-- The pure comparator realising `reverse=True` over scalar-decorated
`(key, value)` pairs: `x` may come before `y` iff its key is ≥. -/
def byKeyDesc (x y : Nat × Val) : Bool := decide (y.1 ≤ x.1)

/-- Scan loop of `safe_branch_from_attachments` (transforms.py lines
57-61): first attachment (in sorted order) whose
`(a.get("identifier") or \x7b\x7d).get("branch")` is truthy; `""` when none
is.  Polymorphic in the decoration key, which the loop never touches. -/
def sb_scan : List (κ × Val) → PyM Val
  | [] => .ok (.str "")
  | (_, a) :: rest => do
    let id0 ← a.get "identifier"
    let b ← (id0.orElse (.dict [])).get "branch"
    if b.truthy then return b else sb_scan rest

/-- Embeds `safe_branch_from_attachments(atts)` (transforms.py lines 51-61):
`""` for a falsy argument; otherwise decorate each attachment with its
sort key (computed once per element, as `sorted(key=...)` does), stable
sort descending by Python `<` on the keys, and scan for the first truthy
branch. -/
def safe_branch_from_attachments (P : Val → Option Pd) (atts : Val) : PyM Val := do
  if !atts.truthy then return (.str "") else
  let xs ← atts.iter
  let keyed ← xs.mapM (fun a => do
    let k ← sb_key P a
    return (k, a))
  let sorted ← pySortedM pairLt keyed
  sb_scan sorted

/-! ## `src/api.py` -/

/-- Outcome of one HTTP GET (`requests.get` in `_get`, api.py lines 10-16):
either a response with a status code and a body — `none` standing for a
body that is not valid JSON, so that `r.json()` raises — or an exception
raised by the request itself. -/
inductive HttpOutcome where
  | response (status : Nat) (body : Option Val)
  | exn

/-- Embeds `_get(url, params)` (api.py lines 10-16): `None` (model `Val.null`,
which is what the callers' `or` fallbacks observe) on a request exception,
a non-200 status, or a body `r.json()` cannot parse; otherwise the parsed
JSON body. -/
def api_get : HttpOutcome → Val
  | .exn => .null
  | .response status body =>
    if status ≠ 200 then .null
    else match body with
      | some v => v
      | none => .null

/-- Embeds `fetch_bundles(limit)` (api.py lines 18-23), online branch:
`data = _get(...) or \x7b\x7d` then
`data.get("data") or data.get("bundles") or []` with Python's
short-circuit.  The offline branch (lines 19-21) reads a local fixture
file and is outside the transport model. -/
def fetch_bundles (o : HttpOutcome) : PyM Val := do
  let data := (api_get o).orElse (.dict [])
  let d1 ← data.get "data"
  if d1.truthy then return d1 else
  let d2 ← data.get "bundles"
  return d2.orElse (.list [])

/-- The fallback value of `fetch_audit_events`:
`\x7b"events": [], "estimatedMatches": 0\x7d`. -/
def emptyEvents : Val := .dict [("events", .list []), ("estimatedMatches", .int 0)]

/-- Embeds `fetch_audit_events(params)` (api.py lines 25-29), online branch:
`_get(...) or \x7b"events": [], "estimatedMatches": 0\x7d`.  The online
branch performs no attribute access, so it cannot raise; its type is
plain `Val`. -/
def fetch_audit_events (o : HttpOutcome) : Val :=
  (api_get o).orElse emptyEvents

/-! ## `src/ui/tabs_history.py` -/

/-- Embeds `v[0].get("name") if v and v[0].get("name") else "Unassigned"`
(tabs_history.py lines 42-43, for `v` = `removed` resp. `added`). -/
def firstName (v : Val) : PyM Val := do
  if !v.truthy then return (.str "Unassigned") else
  let x ← v.index0
  let nm ← x.get "name"
  if nm.truthy then return nm else return (.str "Unassigned")

/-- Body of the inner loop of `_before_after` (tabs_history.py lines
36-44) for one field change: `some` result when the field is recognized
(`stage`/`state`/`assignee`), `none` to keep scanning. -/
def before_after_fc (fc : Val) : PyM (Option (Val × Val × Val)) := do
  let field ← fc.get "fieldName"
  if field.pyEq (.str "stage") || field.pyEq (.str "state") then
    let b ← fc.get "before"
    let a ← fc.get "after"
    return some (.str (b.orElse (.str "")).pyStr, .str (a.orElse (.str "")).pyStr, field)
  else if field.pyEq (.str "assignee") then
    let added ← fc.get "added"
    let removed ← fc.get "removed"
    let b ← firstName (removed.orElse (.list []))
    let a ← firstName (added.orElse (.list []))
    return some (b, a, .str "assignee")
  else
    return none

/-- Inner loop of `_before_after` over one target's `fieldChanges`. -/
def bfa_scanFCs : List Val → PyM (Option (Val × Val × Val))
  | [] => .ok none
  | fc :: rest => do
    match ← before_after_fc fc with
    | some r => return some r
    | none => bfa_scanFCs rest

/-- Outer loop of `_before_after` over `e.get("targets", [])`. -/
def bfa_scanTargets : List Val → PyM (Option (Val × Val × Val))
  | [] => .ok none
  | t :: rest => do
    let fv ← t.getD "fieldChanges" (.list [])
    let fcs ← fv.iter
    match ← bfa_scanFCs fcs with
    | some r => return some r
    | none => bfa_scanTargets rest

/-- Embeds `_before_after(e)` (tabs_history.py lines 33-45). -/
def before_after (e : Val) : PyM (Val × Val × Val) := do
  let tv ← e.getD "targets" (.list [])
  let ts ← tv.iter
  match ← bfa_scanTargets ts with
  | some r => return r
  | none => return (.str "", .str "", .str "")

/-- First loop of `_pull_stage_name` (tabs_history.py lines 24-26) over
`e.get("affecting", [])`: first entity of type `governancePolicyStage`
with a truthy name. -/
def pull_affecting_scan : List Val → PyM (Option Val)
  | [] => .ok none
  | a :: rest => do
    let et ← a.get "entityType"
    if et.pyEq (.str "governancePolicyStage") then
      let nm ← a.get "name"
      if nm.truthy then return some nm else pull_affecting_scan rest
    else pull_affecting_scan rest

/-- Inner loop of the fallback in `_pull_stage_name` (tabs_history.py
lines 28-30): first field change named `stage`, rendered as the f-string
`f'\x7bfc.get("before") or ""\x7d → \x7bfc.get("after") or ""\x7d'`. -/
def pull_fc_scan : List Val → PyM (Option String)
  | [] => .ok none
  | fc :: rest => do
    let field ← fc.get "fieldName"
    if field.pyEq (.str "stage") then
      let b ← fc.get "before"
      let a ← fc.get "after"
      return some ((b.orElse (.str "")).pyStr ++ " → " ++ (a.orElse (.str "")).pyStr)
    else pull_fc_scan rest

/-- Outer loop of the fallback in `_pull_stage_name` over
`e.get("targets", [])`. -/
def pull_target_scan : List Val → PyM (Option String)
  | [] => .ok none
  | t :: rest => do
    let fv ← t.getD "fieldChanges" (.list [])
    let fcs ← fv.iter
    match ← pull_fc_scan fcs with
    | some r => return some r
    | none => pull_target_scan rest

/-- Embeds `_pull_stage_name(e)` (tabs_history.py lines 23-31). -/
def pull_stage_name (e : Val) : PyM Val := do
  let av ← e.getD "affecting" (.list [])
  let affs ← av.iter
  match ← pull_affecting_scan affs with
  | some nm => return nm
  | none =>
    let tv ← e.getD "targets" (.list [])
    let ts ← tv.iter
    match ← pull_target_scan ts with
    | some s => return (.str s)
    | none => return (.str "")

/-- The comprehension `[b for b in bundles if b.get("name")==selected_name]`
(tabs_history.py line 66), evaluated element by element. -/
def name_filter (selected_name : String) : List Val → PyM (List Val)
  | [] => .ok []
  | b :: rest => do
    let nm ← b.get "name"
    let tail ← name_filter selected_name rest
    return if nm.pyEq (.str selected_name) then b :: tail else tail

/-- The key expression of the resolution sort (tabs_history.py line 67):
`parse_dt(x.get("createdAt")) or pd.Timestamp.min.tz_localize("UTC")`.
The `or` truth-tests the parse result: `None` falls through to the
minimum instant; a `Timestamp` or `NaT` is truthy and is kept as the key
(so a `NaT` key is *not* replaced by the minimum); the truth test of a
`DatetimeIndex` raises. -/
def pdOrMin (r : Option Pd) : PyM Pd :=
  match r with
  | none => .ok (.ts 0)
  | some p => do
    let b ← p.pyBool
    return (if b then p else .ts 0)

/-- The bundle-name resolution slice of `render` (tabs_history.py lines
66-68): filter the fetched bundles to those whose `name` equals the
selected name, stable-sort them descending by the `pdOrMin` key (keys are
computed for every candidate before any comparison, as `list.sort(key=…)`
does), and take `cand[0].get("id")` (`None` when no bundle matched). -/
def resolve_bundle_id (P : Val → Option Pd) (bundles : List Val)
    (selected_name : String) : PyM Val := do
  let cand ← name_filter selected_name bundles
  let keyed ← cand.mapM (fun b => do
    let c ← b.get "createdAt"
    let k ← pdOrMin (parse_dt P c)
    return (k, b))
  let sorted ← pySortedM pairLt keyed
  match sorted with
  | [] => return .null
  | (_, b) :: _ => b.get "id"

/-! ## Spec-side vocabulary

Total accessors and Boolean shape predicates used to state the claims.
`wf…` predicates delimit the JSON shapes on which the dynamic code performs
its attribute accesses on actual dicts and its iterations on actual lists;
the claims' "absent / null / empty fields" all stay inside these shapes at
leaf positions, while a null (or otherwise non-list) value in a collection
position falls outside them — and, as proved below, makes the source
raise. -/

/-- A spec-side predicate for the transport failures enumerated by the
spec: a request exception, a non-200 status, or a malformed
(non-JSON-decodable) body. -/
def transportFailure : HttpOutcome → Prop
  | .exn => True
  | .response status body => status ≠ 200 ∨ body = none

/-- The stage name recorded on one stage entry:
`(s.get("stage") or \x7b\x7d).get("name")`. -/
def entryStageName (s : Val) : Val := ((s.field "stage").orElse (.dict [])).field "name"

/-- The assignee name recorded on one stage entry:
`(s.get("assignee") or \x7b\x7d).get("name")`. -/
def entryAssigneeName (s : Val) : Val := ((s.field "assignee").orElse (.dict [])).field "name"

/-- The branch identifier carried by an attachment:
`(a.get("identifier") or \x7b\x7d).get("branch")`. -/
def attBranch (a : Val) : Val := ((a.field "identifier").orElse (.dict [])).field "branch"

/-- The parser yields a scalar timestamp whenever it succeeds: the
restriction of the claims to inputs on which `to_datetime` never returns
`NaT` or a `DatetimeIndex` (it parses to a scalar `Timestamp` or
raises). -/
def ScalarParse (P : Val → Option Pd) : Prop :=
  ∀ v p, P v = some p → ∃ t, p = Pd.ts t

/-- The sort key the source derives from a record's `createdAt` on the
scalar-parse domain: its parsed instant, or the minimum instant (model
value `0`) when it does not parse. -/
def createdKey (P : Val → Option Pd) (v : Val) : Nat :=
  match parse_dt P (v.field "createdAt") with
  | some (.ts t) => t
  | _ => 0

/-- The stage-entry list of a bundle as the source iterates it
(`bundle.get("stages", [])`, restricted to the well-formed shapes). -/
def bundleStages (b : Val) : List Val :=
  match b.fieldOpt "stages" with
  | some (.list ss) => ss
  | _ => []

/-- The target list of an event as the source iterates it
(`e.get("targets", [])`, restricted to the well-formed shapes). -/
def eventTargets (e : Val) : List Val :=
  match e.fieldOpt "targets" with
  | some (.list ts) => ts
  | _ => []

/-- The field-change list of a target as the source iterates it
(`t.get("fieldChanges", [])`, restricted to the well-formed shapes). -/
def targetFCs (t : Val) : List Val :=
  match t.fieldOpt "fieldChanges" with
  | some (.list fcs) => fcs
  | _ => []

/-- All field changes of an event, in the order the nested loops of
`_before_after` visit them. -/
def eventFCs (e : Val) : List Val :=
  (eventTargets e).flatMap targetFCs

/-- Whether `_before_after` recognizes a field change (its `fieldName` is
`stage`, `state` or `assignee`). -/
def recognizedFC (fc : Val) : Bool :=
  (fc.field "fieldName").pyEq (.str "stage")
    || (fc.field "fieldName").pyEq (.str "state")
    || (fc.field "fieldName").pyEq (.str "assignee")

/-- Spec-side value of `firstName` on well-formed lists: the first
element's truthy `name`, else `"Unassigned"`. -/
def firstNameSpec (v : Val) : Val :=
  match v.orElse (.list []) with
  | .list (x :: _) =>
    if (x.field "name").truthy then x.field "name" else .str "Unassigned"
  | _ => .str "Unassigned"

/-- A value the source may apply `… or \x7b\x7d` followed by `.get` to:
either falsy (the `or` replaces it by `\x7b\x7d`) or an actual dict. -/
def dictWhenTruthy (v : Val) : Bool := !v.truthy || v.isDict

/-- A value that is either falsy or a list of dicts. -/
def listOfDictsWhenTruthy (v : Val) : Bool :=
  !v.truthy ||
    (match v with
     | .list xs => xs.all Val.isDict
     | _ => false)

/-- Well-formed stage entry: a dict whose `stage` and `assignee` fields,
when truthy, are dicts. -/
def wfStageEntry (s : Val) : Bool :=
  s.isDict && dictWhenTruthy (s.field "stage") && dictWhenTruthy (s.field "assignee")

/-- Well-formed attachment: a dict whose `identifier` field, when truthy,
is a dict. -/
def wfAttachment (a : Val) : Bool :=
  a.isDict && dictWhenTruthy (a.field "identifier")

/-- A field that, when present, is a list whose elements satisfy
`wfElem` (the shape `v.get(k, [])` needs in order to be iterable). -/
def wfListField (wfElem : Val → Bool) (v : Val) (k : String) : Bool :=
  match v.fieldOpt k with
  | none => true
  | some (.list xs) => xs.all wfElem
  | some _ => false

/-- Well-formed bundle: a dict whose `stages` / `attachments` fields, when
present, are lists of well-formed entries / attachments. -/
def wfBundle (b : Val) : Bool :=
  b.isDict && wfListField wfStageEntry b "stages"
    && wfListField wfAttachment b "attachments"

/-- Well-formed field change: a dict whose `added` / `removed` fields,
when truthy, are lists of dicts. -/
def wfFieldChange (fc : Val) : Bool :=
  fc.isDict && listOfDictsWhenTruthy (fc.field "added")
    && listOfDictsWhenTruthy (fc.field "removed")

/-- Well-formed event target: a dict whose `fieldChanges` field, when
present, is a list of well-formed field changes. -/
def wfTarget (t : Val) : Bool :=
  t.isDict && wfListField wfFieldChange t "fieldChanges"

/-- Well-formed audit event: a dict whose `targets` / `affecting` fields,
when present, are lists of well-formed targets / of dicts. -/
def wfEvent (e : Val) : Bool :=
  e.isDict && wfListField wfTarget e "targets"
    && wfListField Val.isDict e "affecting"

/-- Spec-side statement of "the sequence of first-occurrence-unique names,
preserving original order": keep each name's first occurrence and delete
its later duplicates. -/
def firstOccurrenceUnique : List String → List String
  | [] => []
  | n :: rest => n :: firstOccurrenceUnique (rest.filter (fun m => m ≠ n))
termination_by l => l.length
decreasing_by
  simp only [List.length_cons]
  exact Nat.lt_succ_of_le (List.length_filter_le _ _)

/-! ## Basic lemmas -/

theorem pym_bind_ok (a : α) (f : α → PyM β) :
    (Except.ok a : PyM α) >>= f = f a := rfl

theorem pym_bind_error (f : α → PyM β) :
    (Except.error () : PyM α) >>= f = Except.error () := rfl

/-- On a dict, `v.get k` succeeds and returns the spec-side field value. -/
theorem get_field {v : Val} (hv : v.isDict = true) (k : String) :
    v.get k = .ok (v.field k) := by
  cases v
  case dict kvs => rfl
  all_goals simp [Val.isDict] at hv

/-- After an `… or \x7b\x7d` guard on a `dictWhenTruthy` value, `.get`
succeeds and returns the spec-side field value. -/
theorem orElse_get {v : Val} (hv : dictWhenTruthy v = true) (k : String) :
    (v.orElse (.dict [])).get k = .ok ((v.orElse (.dict [])).field k) := by
  refine get_field ?_ k
  unfold Val.orElse
  cases h : v.truthy with
  | true => simpa [dictWhenTruthy, h] using hv
  | false => simp [Val.isDict]

/-- On a dict, `v.get(k, d)` succeeds and returns the stored value, or `d`
when the key is absent. -/
theorem getD_fieldOpt {v : Val} (hv : v.isDict = true) (k : String) (d : Val) :
    v.getD k d = .ok ((v.fieldOpt k).getD d) := by
  cases v
  case dict kvs => rfl
  all_goals simp [Val.isDict] at hv

/-! ## Lemmas about `order_stages_like_humans` -/

theorem oslu_aux_mem {seen : List String} {l : List String} {n : String}
    (h : n ∈ oslu_aux seen l) : n ∈ l ∧ n ≠ "" ∧ n ∉ seen := by
  induction l generalizing seen with
  | nil => simp [oslu_aux] at h
  | cons m rest ih =>
    rw [oslu_aux] at h
    by_cases hc : m ≠ "" ∧ m ∉ seen
    · rw [if_pos hc] at h
      rcases List.mem_cons.mp h with h1 | h2
      · subst h1; exact ⟨List.mem_cons_self .., hc.1, hc.2⟩
      · rcases ih h2 with ⟨h3, h4, h5⟩
        refine ⟨List.mem_cons_of_mem _ h3, h4, fun hseen => h5 ?_⟩
        exact List.mem_cons_of_mem _ hseen
    · rw [if_neg hc] at h
      rcases ih h with ⟨h3, h4, h5⟩
      exact ⟨List.mem_cons_of_mem _ h3, h4, h5⟩

theorem oslu_aux_nodup (seen : List String) (l : List String) :
    (oslu_aux seen l).Nodup := by
  induction l generalizing seen with
  | nil => simp [oslu_aux]
  | cons m rest ih =>
    rw [oslu_aux]
    by_cases hc : m ≠ "" ∧ m ∉ seen
    · rw [if_pos hc]
      refine List.nodup_cons.mpr ⟨fun hmem => ?_, ih _⟩
      exact (oslu_aux_mem hmem).2.2 (List.mem_cons_self ..)
    · rw [if_neg hc]; exact ih _

theorem oslu_aux_fix {seen : List String} {l : List String}
    (h : ∀ n ∈ l, n ≠ "" ∧ n ∉ seen) (hnd : l.Nodup) :
    oslu_aux seen l = l := by
  induction l generalizing seen with
  | nil => rfl
  | cons m rest ih =>
    rw [oslu_aux, if_pos (h m (List.mem_cons_self ..))]
    rcases List.nodup_cons.mp hnd with ⟨hm, hnd'⟩
    congr 1
    refine ih (fun n hn => ?_) hnd'
    rcases h n (List.mem_cons_of_mem _ hn) with ⟨h1, h2⟩
    refine ⟨h1, fun hmem => ?_⟩
    rcases List.mem_cons.mp hmem with rfl | hmem'
    · exact hm hn
    · exact h2 hmem'

theorem oslu_aux_fou {l : List String} (h : ∀ n ∈ l, n ≠ "") :
    ∀ seen : List String,
      oslu_aux seen l = firstOccurrenceUnique (l.filter (fun m => !seen.contains m)) := by
  induction l with
  | nil => intro seen; simp [oslu_aux, firstOccurrenceUnique]
  | cons m rest ih =>
    intro seen
    have hm : m ≠ "" := h m (List.mem_cons_self ..)
    have hrest : ∀ n ∈ rest, n ≠ "" := fun n hn => h n (List.mem_cons_of_mem _ hn)
    rw [oslu_aux]
    by_cases hc : m ∈ seen
    · rw [if_neg (by simp [hm, hc]), List.filter_cons,
        if_neg (by simpa using hc)]
      exact ih hrest seen
    · rw [if_pos ⟨hm, hc⟩, List.filter_cons, if_pos (by simpa using hc),
        firstOccurrenceUnique, List.filter_filter]
      rw [ih hrest (m :: seen)]
      have hf : List.filter (fun m1 => !(m :: seen).contains m1) rest
          = List.filter (fun a => decide (a ≠ m) && !seen.contains a) rest := by
        refine List.filter_congr (fun x _ => ?_)
        by_cases hx : x = m <;> simp [hx]
      rw [hf]

/-- Claim C5 — `order_stages_like_humans` is idempotent, it realises
first-occurrence-order de-duplication on lists of (non-empty) names, and
it maps `["A","B","A","C"]` to `["A","B","C"]`. -/
theorem order_stages_idempotent_firstOccurrence (l : List String) :
    order_stages_like_humans (order_stages_like_humans l) = order_stages_like_humans l
      ∧ ((∀ n ∈ l, n ≠ "") → order_stages_like_humans l = firstOccurrenceUnique l)
      ∧ order_stages_like_humans ["A", "B", "A", "C"] = ["A", "B", "C"] := by
  refine ⟨?_, ?_, by decide⟩
  · refine oslu_aux_fix (fun n hn => ?_) (oslu_aux_nodup [] l)
    rcases oslu_aux_mem hn with ⟨_, h2, _⟩
    exact ⟨h2, by simp⟩
  · intro h
    rw [order_stages_like_humans, oslu_aux_fou h []]
    have hf : l.filter (fun m => !List.contains [] m) = l := by simp
    rw [hf]

/-- Witness for C5 at the concrete input `["A","B","A","C"]`. -/
theorem order_stages_idempotent_firstOccurrence_witness :
    order_stages_like_humans (order_stages_like_humans ["A", "B", "A", "C"])
        = order_stages_like_humans ["A", "B", "A", "C"]
      ∧ order_stages_like_humans ["A", "B", "A", "C"]
        = firstOccurrenceUnique ["A", "B", "A", "C"] :=
  ⟨(order_stages_idempotent_firstOccurrence ["A", "B", "A", "C"]).1,
    (order_stages_idempotent_firstOccurrence ["A", "B", "A", "C"]).2.1 (by decide)⟩

/-- Claim C9 — `order_stages_like_humans` never emits an empty (falsy)
name, even when the input contains one; e.g. `["", "A", ""] ↦ ["A"]`. -/
theorem order_stages_drops_empty (l : List String) :
    "" ∉ order_stages_like_humans l
      ∧ order_stages_like_humans ["", "A", ""] = ["A"] := by
  refine ⟨fun h => ?_, by decide⟩
  exact (oslu_aux_mem h).2.1 rfl

/-! ## Claim C1 — fail-soft fetchers -/

/-- Claim C1 — on every transport failure (request exception, non-200
status, or a body that is not valid JSON) `fetch_bundles` returns the
empty list and `fetch_audit_events` returns
`\x7b"events": [], "estimatedMatches": 0\x7d`, and neither raises
(`Except.ok` result resp. plain value). -/
theorem fetch_failsoft (o : HttpOutcome) (h : transportFailure o) :
    fetch_bundles o = .ok (.list []) ∧ fetch_audit_events o = emptyEvents := by
  have hnull : api_get o = .null := by
    cases o with
    | exn => rfl
    | response status body =>
      rcases h with h200 | hbody
      · simp [api_get, h200]
      · subst hbody
        by_cases hs : status ≠ 200 <;> simp [api_get, hs]
  constructor
  · rw [fetch_bundles, hnull]; rfl
  · rw [fetch_audit_events, hnull]; rfl

/-- Witness for C1 at a simulated HTTP 500 response with a well-formed
body. -/
theorem fetch_failsoft_witness :
    transportFailure (.response 500 (some (.dict [("data", .list [.int 1])])))
      ∧ fetch_bundles (.response 500 (some (.dict [("data", .list [.int 1])]))) = .ok (.list [])
      ∧ fetch_audit_events (.response 500 (some (.dict [("data", .list [.int 1])]))) = emptyEvents :=
  ⟨Or.inl (by decide),
    fetch_failsoft (.response 500 (some (.dict [("data", .list [.int 1])]))) (Or.inl (by decide))⟩

/-! ## Lemmas about the assignee scan -/

/-- Case analysis on a well-formed optional list field: absent, or a list
of well-formed elements. -/
theorem wfListField_cases {wfe : Val → Bool} {v : Val} {k : String}
    (h : wfListField wfe v k = true) :
    v.fieldOpt k = none
      ∨ ∃ xs, v.fieldOpt k = some (.list xs) ∧ ∀ x ∈ xs, wfe x = true := by
  rw [wfListField] at h
  cases hopt : v.fieldOpt k with
  | none => exact Or.inl rfl
  | some w =>
    rw [hopt] at h
    cases w with
    | list xs => exact Or.inr ⟨xs, rfl, by simpa [List.all_eq_true] using h⟩
    | null => exact Bool.noConfusion h
    | bool x => exact Bool.noConfusion h
    | int x => exact Bool.noConfusion h
    | str x => exact Bool.noConfusion h
    | dict kvs => exact Bool.noConfusion h

/-- One well-formed step of the scan: on a match, the loop returns the
entry's assignee name (or `"Unassigned"`); otherwise it moves on. -/
theorem assignee_scan_cons {s : Val} (hs : wfStageEntry s = true)
    (target : Val) (rest : List Val) :
    assignee_scan target (s :: rest)
      = if (entryStageName s).pyEq target then
          .ok ((entryAssigneeName s).orElse (.str "Unassigned"))
        else assignee_scan target rest := by
  obtain ⟨⟨hd, hst⟩, has⟩ :
      (s.isDict = true ∧ dictWhenTruthy (s.field "stage") = true)
        ∧ dictWhenTruthy (s.field "assignee") = true := by
    simpa [wfStageEntry, Bool.and_eq_true] using hs
  rw [assignee_scan, get_field hd "stage"]
  simp only [pym_bind_ok]
  rw [orElse_get hst "name"]
  simp only [pym_bind_ok]
  rw [get_field hd "assignee"]
  simp only [pym_bind_ok]
  rw [orElse_get has "name"]
  simp only [pym_bind_ok]
  rfl

/-- When every matching entry lacks a truthy assignee name (in particular
when nothing matches), the scan yields `"Unassigned"`. -/
theorem assignee_scan_unassigned {ss : List Val} (hwf : ∀ s ∈ ss, wfStageEntry s = true)
    {target : Val}
    (h : ∀ s ∈ ss, (entryStageName s).pyEq target = true → (entryAssigneeName s).truthy = false) :
    assignee_scan target ss = .ok (.str "Unassigned") := by
  induction ss with
  | nil => rfl
  | cons s rest ih =>
    rw [assignee_scan_cons (hwf s (List.mem_cons_self ..)) target rest]
    by_cases hm : (entryStageName s).pyEq target = true
    · rw [if_pos hm]
      have hfalsy := h s (List.mem_cons_self ..) hm
      rw [Val.orElse, hfalsy]
      rfl
    · rw [if_neg hm]
      exact ih (fun x hx => hwf x (List.mem_cons_of_mem _ hx))
        (fun x hx => h x (List.mem_cons_of_mem _ hx))

/-- The scan returns the assignee of the first matching entry; entries
after it are ignored. -/
theorem assignee_scan_first {pre : List Val} {s : Val} {rest : List Val}
    (hwf : ∀ x ∈ pre ++ s :: rest, wfStageEntry x = true) {target : Val}
    (hpre : ∀ x ∈ pre, (entryStageName x).pyEq target = false)
    (hs : (entryStageName s).pyEq target = true) :
    assignee_scan target (pre ++ s :: rest)
      = .ok ((entryAssigneeName s).orElse (.str "Unassigned")) := by
  induction pre with
  | nil =>
    rw [List.nil_append, assignee_scan_cons (hwf s (List.mem_cons_self ..)) target rest,
      if_pos hs]
  | cons p ptail ih =>
    rw [List.cons_append, assignee_scan_cons (hwf p (List.mem_cons_self ..)) target,
      if_neg (by simp [hpre p (List.mem_cons_self ..)])]
    exact ih (fun x hx => hwf x (List.mem_cons_of_mem _ hx))
      (fun x hx => hpre x (List.mem_cons_of_mem _ hx))

/-- The scan never raises on well-formed stage entries. -/
theorem assignee_scan_isOk {ss : List Val} (hwf : ∀ s ∈ ss, wfStageEntry s = true)
    (target : Val) : (assignee_scan target ss).isOk = true := by
  induction ss with
  | nil => rfl
  | cons s rest ih =>
    rw [assignee_scan_cons (hwf s (List.mem_cons_self ..)) target rest]
    by_cases hm : (entryStageName s).pyEq target = true
    · rw [if_pos hm]; rfl
    · rw [if_neg hm]
      exact ih (fun x hx => hwf x (List.mem_cons_of_mem _ hx))

/-- The function `current_stage_assignee` factors through the scan over the bundle's
spec-side stage list. -/
theorem current_stage_assignee_eq {b : Val} (hb : wfBundle b = true) :
    current_stage_assignee b = assignee_scan (b.field "stage") (bundleStages b) := by
  obtain ⟨⟨hd, hl⟩, _⟩ :
      (b.isDict = true ∧ wfListField wfStageEntry b "stages" = true)
        ∧ wfListField wfAttachment b "attachments" = true := by
    simpa [wfBundle, Bool.and_eq_true] using hb
  rw [current_stage_assignee, get_field hd "stage"]
  simp only [pym_bind_ok]
  rw [getD_fieldOpt hd "stages" (.list [])]
  simp only [pym_bind_ok]
  rcases wfListField_cases hl with h0 | ⟨ss, h1, _⟩
  · rw [bundleStages, h0]; rfl
  · rw [bundleStages, h1]; rfl

/-- The elements of the spec-side stage list of a well-formed bundle are
well-formed stage entries. -/
theorem bundleStages_wf {b : Val} (hb : wfBundle b = true) :
    ∀ s ∈ bundleStages b, wfStageEntry s = true := by
  obtain ⟨⟨_, hl⟩, _⟩ :
      (b.isDict = true ∧ wfListField wfStageEntry b "stages" = true)
        ∧ wfListField wfAttachment b "attachments" = true := by
    simpa [wfBundle, Bool.and_eq_true] using hb
  rcases wfListField_cases hl with h0 | ⟨ss, h1, h2⟩
  · rw [bundleStages, h0]; simp
  · rw [bundleStages, h1]; exact h2

/-! ## Claim C6 — degraded assignee lookup -/

/-- Claim C6 — when no entry of a (well-formed) bundle's stage list has a
stage name equal to the bundle's `stage` field, or every matching entry
lacks a truthy assignee name, `current_stage_assignee` returns
`"Unassigned"` without raising. -/
theorem current_stage_assignee_unassigned {b : Val} (hb : wfBundle b = true)
    (h : ∀ s ∈ bundleStages b,
      (entryStageName s).pyEq (b.field "stage") = true → (entryAssigneeName s).truthy = false) :
    current_stage_assignee b = .ok (.str "Unassigned") := by
  rw [current_stage_assignee_eq hb]
  exact assignee_scan_unassigned (bundleStages_wf hb) h

/-- Witness for C6: a bundle whose `stage` is `"X"` while its only stage
entry is named `"Y"`. -/
theorem current_stage_assignee_unassigned_witness :
    wfBundle (.dict [("stage", .str "X"),
        ("stages", .list [.dict [("stage", .dict [("name", .str "Y")]),
          ("assignee", .dict [("name", .str "Bob")])]])]) = true
      ∧ current_stage_assignee (.dict [("stage", .str "X"),
          ("stages", .list [.dict [("stage", .dict [("name", .str "Y")]),
            ("assignee", .dict [("name", .str "Bob")])]])]) = .ok (.str "Unassigned") :=
  ⟨by decide, current_stage_assignee_unassigned (by decide) (by decide)⟩

/-! ## Claim C10 — first matching entry wins -/

/-- Claim C10 — with several entries matching the queried name, both
`stage_assignee_for_name` and `current_stage_assignee` return the
assignee of the first matching entry in list order; entries after it do
not influence the result. -/
theorem assignee_lookup_first_match {pre : List Val} {s : Val} {rest : List Val}
    {name : String} (hwf : ∀ x ∈ pre ++ s :: rest, wfStageEntry x = true)
    (hpre : ∀ x ∈ pre, (entryStageName x).pyEq (.str name) = false)
    (hs : (entryStageName s).pyEq (.str name) = true) :
    stage_assignee_for_name (.list (pre ++ s :: rest)) name
        = .ok ((entryAssigneeName s).orElse (.str "Unassigned"))
      ∧ ∀ b : Val, wfBundle b = true → b.field "stage" = .str name →
          bundleStages b = pre ++ s :: rest →
          current_stage_assignee b = .ok ((entryAssigneeName s).orElse (.str "Unassigned")) := by
  constructor
  · rw [stage_assignee_for_name, Val.iter, pym_bind_ok]
    exact assignee_scan_first hwf hpre hs
  · intro b hb hstage hstages
    rw [current_stage_assignee_eq hb, hstage, hstages]
    exact assignee_scan_first hwf hpre hs

/-- Witness for C10: two entries named `"Y"`, the first assigned to
`"Ann"`, the second to `"Bob"`; the lookup returns `"Ann"`. -/
theorem assignee_lookup_first_match_witness :
    stage_assignee_for_name (.list
        ([] ++ (Val.dict [("stage", .dict [("name", .str "Y")]),
            ("assignee", .dict [("name", .str "Ann")])])
          :: [Val.dict [("stage", .dict [("name", .str "Y")]),
            ("assignee", .dict [("name", .str "Bob")])]])) "Y"
      = .ok ((entryAssigneeName (Val.dict [("stage", .dict [("name", .str "Y")]),
          ("assignee", .dict [("name", .str "Ann")])])).orElse (.str "Unassigned"))
      ∧ (entryAssigneeName (Val.dict [("stage", .dict [("name", .str "Y")]),
          ("assignee", .dict [("name", .str "Ann")])])).orElse (.str "Unassigned") = .str "Ann" :=
  ⟨(assignee_lookup_first_match (by decide) (by decide) (by decide)).1, rfl⟩

/-! ## Lemmas about the stable sort -/

theorem pyInsert_perm (le : α → α → Bool) (x : α) (l : List α) :
    (pyInsert le x l).Perm (x :: l) := by
  induction l with
  | nil => exact List.Perm.refl _
  | cons y ys ih =>
    rw [pyInsert]
    by_cases hc : le y x && !le x y
    · rw [if_pos hc]
      exact (List.Perm.cons y ih).trans (List.Perm.swap x y ys)
    · rw [if_neg hc]

theorem pySorted_perm (le : α → α → Bool) (l : List α) :
    (pySorted le l).Perm l := by
  induction l with
  | nil => exact List.Perm.refl _
  | cons x xs ih =>
    rw [pySorted]
    exact (pyInsert_perm le x (pySorted le xs)).trans (ih.cons x)

theorem pyInsert_pairwise {x : α} {l : List α} {le : α → α → Bool}
    (htot : ∀ a b, le a b = false → le b a = true)
    (htrans : ∀ a b c, le a b = true → le b c = true → le a c = true)
    (hl : l.Pairwise (fun a b => le a b = true)) :
    (pyInsert le x l).Pairwise (fun a b => le a b = true) := by
  induction l with
  | nil => simp [pyInsert]
  | cons y ys ih =>
    rcases List.pairwise_cons.mp hl with ⟨hy, hys⟩
    rw [pyInsert]
    by_cases hc : (le y x && !le x y) = true
    · rw [if_pos hc]
      have hyx : le y x = true := by
        cases h1 : le y x with
        | true => rfl
        | false => rw [h1] at hc; exact Bool.noConfusion hc
      refine List.pairwise_cons.mpr ⟨fun a ha => ?_, ih hys⟩
      rcases List.mem_cons.mp (((pyInsert_perm le x ys).mem_iff).mp ha) with rfl | h
      · exact hyx
      · exact hy a h
    · rw [if_neg hc]
      have hxy : le x y = true := by
        cases h1 : le x y with
        | true => rfl
        | false => exact absurd (by simp [htot x y h1, h1]) hc
      refine List.pairwise_cons.mpr ⟨fun a ha => ?_, hl⟩
      rcases List.mem_cons.mp ha with rfl | h
      · exact hxy
      · exact htrans x y a hxy (hy a h)

theorem pySorted_pairwise {le : α → α → Bool}
    (htot : ∀ a b, le a b = false → le b a = true)
    (htrans : ∀ a b c, le a b = true → le b c = true → le a c = true)
    (l : List α) :
    (pySorted le l).Pairwise (fun a b => le a b = true) := by
  induction l with
  | nil => exact List.Pairwise.nil
  | cons x xs ih => exact pyInsert_pairwise htot htrans ih

theorem byKeyDesc_total : ∀ a b : Nat × Val, byKeyDesc a b = false → byKeyDesc b a = true := by
  intro a b h
  simp [byKeyDesc] at h ⊢
  omega

theorem byKeyDesc_trans : ∀ a b c : Nat × Val,
    byKeyDesc a b = true → byKeyDesc b c = true → byKeyDesc a c = true := by
  intro a b c h1 h2
  simp [byKeyDesc] at h1 h2 ⊢
  omega

/-- Splitting a list at the first element satisfying `p`, when one
exists. -/
theorem exists_first_split {l : List α} {p : α → Bool}
    (h : ∃ x ∈ l, p x = true) :
    ∃ pre x suf, l = pre ++ x :: suf ∧ p x = true ∧ ∀ y ∈ pre, p y = false := by
  induction l with
  | nil => simp at h
  | cons a rest ih =>
    by_cases ha : p a = true
    · exact ⟨[], a, rest, rfl, ha, by simp⟩
    · have : ∃ x ∈ rest, p x = true := by
        rcases h with ⟨x, hmem, hx⟩
        rcases List.mem_cons.mp hmem with rfl | hr
        · exact absurd hx ha
        · exact ⟨x, hr, hx⟩
      rcases ih this with ⟨pre, x, suf, heq, hx, hpre⟩
      refine ⟨a :: pre, x, suf, by rw [heq, List.cons_append], hx, fun y hy => ?_⟩
      rcases List.mem_cons.mp hy with rfl | hy'
      · exact Bool.not_eq_true _ ▸ (by simpa using ha)
      · exact hpre y hy'

/-! ## Lemmas about `safe_branch_from_attachments` -/

theorem wfAttachment_isDict {a : Val} (h : wfAttachment a = true) : a.isDict = true := by
  simp [wfAttachment, Bool.and_eq_true] at h
  exact h.1

theorem parse_dt_some {P : Val → Option Pd} {v : Val} {p : Pd}
    (h : parse_dt P v = some p) : P v = some p := by
  cases v with
  | null => exact Option.noConfusion h
  | bool b => simpa [parse_dt, Val.pyEq] using h
  | int n => simpa [parse_dt, Val.pyEq] using h
  | list xs => simpa [parse_dt, Val.pyEq] using h
  | dict kvs => simpa [parse_dt, Val.pyEq] using h
  | str s =>
    have h' : (if (Val.str s).pyEq (.str "") = true then none else P (.str s)) = some p := h
    by_cases hs : (Val.str s).pyEq (.str "") = true
    · rw [if_pos hs] at h'; exact Option.noConfusion h'
    · rwa [if_neg hs] at h'

/-- On the scalar-parse domain, `parse_dt` yields `none` or a scalar
timestamp. -/
theorem parse_dt_scalar {P : Val → Option Pd} (hP : ScalarParse P) (v : Val) :
    parse_dt P v = none ∨ ∃ t, parse_dt P v = some (Pd.ts t) := by
  cases hp : parse_dt P v with
  | none => exact Or.inl rfl
  | some p =>
    rcases hP v p (parse_dt_some hp) with ⟨t, rfl⟩
    exact Or.inr ⟨t, rfl⟩

/-- Scalar decorated pairs, as lifted into the `Pd` key space. -/
def embedKeys : List (Nat × Val) → List (Pd × Val)
  | [] => []
  | p :: rest => (Pd.ts p.1, p.2) :: embedKeys rest

/-- On the scalar-parse domain, the sort key of a dict attachment is the
spec-side created-key. -/
theorem sb_key_scalar {P : Val → Option Pd} (hP : ScalarParse P) {a : Val}
    (ha : a.isDict = true) :
    sb_key P a = .ok (Pd.ts (createdKey P a)) := by
  rw [sb_key, get_field ha "createdAt"]
  simp only [pym_bind_ok]
  rcases parse_dt_scalar hP (a.field "createdAt") with h0 | ⟨t, h1⟩
  · rw [createdKey, h0]; rfl
  · rw [createdKey, h1]; rfl

/-- Decorating well-formed attachments with their sort keys succeeds on
the scalar-parse domain and produces the embedded spec-side keys. -/
theorem sb_decorate {P : Val → Option Pd} (hP : ScalarParse P) {xs : List Val}
    (h : ∀ a ∈ xs, a.isDict = true) :
    xs.mapM (fun a => do
        let k ← sb_key P a
        return (k, a))
      = .ok (embedKeys (xs.map (fun a => (createdKey P a, a)))) := by
  induction xs with
  | nil => rfl
  | cons a rest ih =>
    rw [List.mapM_cons, sb_key_scalar hP (h a (List.mem_cons_self ..))]
    simp only [pym_bind_ok]
    rw [ih (fun x hx => h x (List.mem_cons_of_mem _ hx))]
    rfl

/-- On embedded scalar keys the monadic insertion computes the pure
one. -/
theorem pyInsertM_scalar (q : Nat × Val) (l : List (Nat × Val)) :
    pyInsertM pairLt (Pd.ts q.1, q.2) (embedKeys l)
      = .ok (embedKeys (pyInsert byKeyDesc q l)) := by
  induction l with
  | nil => rfl
  | cons y ys ih =>
    obtain ⟨ky, vy⟩ := y
    rw [embedKeys, pyInsertM, pyInsert]
    have hlt : pairLt (Pd.ts q.1, q.2) (Pd.ts ky, vy) = .ok (decide (q.1 < ky)) := rfl
    rw [hlt]
    simp only [pym_bind_ok]
    by_cases hq : q.1 < ky
    · rw [if_pos (by simpa using hq), if_pos (by simp [byKeyDesc]; omega), ih]
      simp only [pym_bind_ok]
      rfl
    · rw [if_neg (by simpa using hq), if_neg (by simp [byKeyDesc]; omega)]
      rfl

/-- On embedded scalar keys the monadic sort computes the pure stable
sort. -/
theorem pySortedM_scalar (l : List (Nat × Val)) :
    pySortedM pairLt (embedKeys l) = .ok (embedKeys (pySorted byKeyDesc l)) := by
  induction l with
  | nil => rfl
  | cons x xs ih =>
    rw [embedKeys, pySortedM, ih]
    simp only [pym_bind_ok]
    rw [pySorted]
    exact pyInsertM_scalar x (pySorted byKeyDesc xs)

/-- The branch scan ignores the keys, so embedding them is invisible to
it. -/
theorem sb_scan_embed (l : List (Nat × Val)) :
    sb_scan (embedKeys l) = sb_scan l := by
  induction l with
  | nil => rfl
  | cons q rest ih =>
    obtain ⟨k, a⟩ := q
    rw [embedKeys, sb_scan, sb_scan]
    cases hg : a.get "identifier" with
    | error e => rfl
    | ok id0 =>
      simp only [pym_bind_ok]
      cases hb : (id0.orElse (.dict [])).get "branch" with
      | error e => rfl
      | ok b =>
        simp only [pym_bind_ok]
        by_cases ht : b.truthy = true
        · rw [if_pos ht, if_pos ht]
        · rw [if_neg ht, if_neg ht]
          exact ih

/-- The branch scan on pairs whose attachments all lack a truthy branch
returns `""`. -/
theorem sb_scan_no_branch {l : List (κ × Val)}
    (hwf : ∀ q ∈ l, wfAttachment q.2 = true)
    (h : ∀ q ∈ l, (attBranch q.2).truthy = false) :
    sb_scan l = .ok (.str "") := by
  induction l with
  | nil => rfl
  | cons q rest ih =>
    obtain ⟨hd, hid⟩ : q.2.isDict = true ∧ dictWhenTruthy (q.2.field "identifier") = true := by
      simpa [wfAttachment, Bool.and_eq_true] using hwf q (List.mem_cons_self ..)
    obtain ⟨k, a⟩ := q
    rw [sb_scan, get_field hd "identifier"]
    simp only [pym_bind_ok]
    rw [orElse_get hid "branch"]
    simp only [pym_bind_ok]
    have hfalse : (attBranch a).truthy = false := h (k, a) (List.mem_cons_self ..)
    rw [attBranch] at hfalse
    rw [if_neg (by simp [hfalse])]
    exact ih (fun x hx => hwf x (List.mem_cons_of_mem _ hx))
      (fun x hx => h x (List.mem_cons_of_mem _ hx))

/-- The branch scan returns the branch of the first pair carrying a
truthy branch. -/
theorem sb_scan_first {pre : List (κ × Val)} {q : κ × Val} {suf : List (κ × Val)}
    (hwf : ∀ r ∈ pre ++ q :: suf, wfAttachment r.2 = true)
    (hpre : ∀ r ∈ pre, (attBranch r.2).truthy = false)
    (hq : (attBranch q.2).truthy = true) :
    sb_scan (pre ++ q :: suf) = .ok (attBranch q.2) := by
  induction pre with
  | nil =>
    obtain ⟨hd, hid⟩ : q.2.isDict = true ∧ dictWhenTruthy (q.2.field "identifier") = true := by
      simpa [wfAttachment, Bool.and_eq_true] using hwf q (List.mem_cons_self ..)
    obtain ⟨k, a⟩ := q
    rw [List.nil_append, sb_scan, get_field hd "identifier"]
    simp only [pym_bind_ok]
    rw [orElse_get hid "branch"]
    simp only [pym_bind_ok]
    rw [attBranch] at hq
    rw [if_pos (by simpa using hq)]
    rfl
  | cons r ptail ih =>
    obtain ⟨hd, hid⟩ : r.2.isDict = true ∧ dictWhenTruthy (r.2.field "identifier") = true := by
      simpa [wfAttachment, Bool.and_eq_true] using hwf r (List.mem_cons_self ..)
    obtain ⟨k, a⟩ := r
    rw [List.cons_append, sb_scan, get_field hd "identifier"]
    simp only [pym_bind_ok]
    rw [orElse_get hid "branch"]
    simp only [pym_bind_ok]
    have hfalse : (attBranch a).truthy = false := hpre (k, a) (List.mem_cons_self ..)
    rw [attBranch] at hfalse
    rw [if_neg (by simp [hfalse])]
    exact ih (fun x hx => hwf x (List.mem_cons_of_mem _ hx))
      (fun x hx => hpre x (List.mem_cons_of_mem _ hx))

/-- On a non-empty list of dicts over the scalar-parse domain,
`safe_branch_from_attachments` reduces to the branch scan of the
key-decorated stable-sorted list. -/
theorem safe_branch_eq {P : Val → Option Pd} (hP : ScalarParse P) {xs : List Val}
    (hwf : ∀ a ∈ xs, a.isDict = true) (hne : xs ≠ []) :
    safe_branch_from_attachments P (.list xs)
      = sb_scan (pySorted byKeyDesc (xs.map (fun a => (createdKey P a, a)))) := by
  have ht : (Val.list xs).truthy = true := by
    cases xs with
    | nil => exact absurd rfl hne
    | cons x r => rfl
  rw [safe_branch_from_attachments, ht]
  simp only [Bool.not_true]
  rw [if_neg Bool.false_ne_true]
  show ((Val.list xs).iter >>= fun l => _) = _
  rw [Val.iter]
  simp only [pym_bind_ok]
  rw [sb_decorate hP hwf]
  simp only [pym_bind_ok]
  rw [pySortedM_scalar]
  simp only [pym_bind_ok]
  exact sb_scan_embed _

/-- Claim C4, counterexample: the claim as stated is false.  For the
string `"NaT"`, `pd.to_datetime` succeeds and returns `pd.NaT`, which
`parse_dt` passes through; the key function keeps it (`is not None`), and
as a sort key `NaT` compares `False` against everything, so the
two-element stable sort leaves the list unchanged and the scan returns
`"dev"` — the attachment whose timestamp did not parse to a timestamp is
preferred over the later, parseable carrier of `"main"`. -/
theorem safe_branch_not_as_claimed :
    safe_branch_from_attachments
        (fun v => match v with
          | .str "NaT" => some Pd.nat
          | .str "2023-06-01T00:00:00Z" => some (.ts 200)
          | _ => none)
        (.list [.dict [("createdAt", .str "NaT"),
            ("identifier", .dict [("branch", .str "dev")])],
          .dict [("createdAt", .str "2023-06-01T00:00:00Z"),
            ("identifier", .dict [("branch", .str "main")])]])
      = .ok (.str "dev") := rfl

/-- Claim C4, amended — on attachment lists that are well formed and whose
`createdAt` values either fail to parse or parse to scalar timestamps
(`ScalarParse`: `to_datetime` returns neither `NaT` nor a
`DatetimeIndex` for them), `safe_branch_from_attachments` returns `""` on
the empty list and whenever no attachment carries a truthy branch
identifier; otherwise the branch of a branch-carrying attachment whose
created-key (parsed timestamp, unparseable ↦ minimum instant `0`) is
maximal among all branch-carrying attachments, regardless of input
position; and — given that parsed timestamps lie strictly above the
minimum instant — the chosen attachment's timestamp parses whenever any
branch-carrier's does.  Outside this domain the original claim fails: a
`NaT`-keyed attachment can be preferred (see the counterexample), and a
list-valued `createdAt` makes the sort's key comparison raise
`ValueError`. -/
theorem safe_branch_spec (P : Val → Option Pd) (hP : ScalarParse P) (xs : List Val)
    (hwf : ∀ a ∈ xs, wfAttachment a = true) :
    safe_branch_from_attachments P (.list []) = .ok (.str "")
      ∧ ((∀ a ∈ xs, (attBranch a).truthy = false) →
          safe_branch_from_attachments P (.list xs) = .ok (.str ""))
      ∧ ((∃ a ∈ xs, (attBranch a).truthy = true) →
          ∃ a ∈ xs, (attBranch a).truthy = true
            ∧ safe_branch_from_attachments P (.list xs) = .ok (attBranch a)
            ∧ (∀ b ∈ xs, (attBranch b).truthy = true → createdKey P b ≤ createdKey P a)
            ∧ ((∀ v t, P v = some (Pd.ts t) → 0 < t) →
                (∃ b ∈ xs, (attBranch b).truthy = true
                  ∧ (parse_dt P (b.field "createdAt")).isSome = true) →
                (parse_dt P (a.field "createdAt")).isSome = true)) := by
  have hdict : ∀ a ∈ xs, a.isDict = true := fun a ha => wfAttachment_isDict (hwf a ha)
  refine ⟨rfl, ?_, ?_⟩
  · intro hnone
    cases hxs : xs with
    | nil => rfl
    | cons x r =>
      rw [← hxs, safe_branch_eq hP hdict (by rw [hxs]; simp)]
      have hperm := pySorted_perm byKeyDesc (xs.map (fun a => (createdKey P a, a)))
      have hmem : ∀ q ∈ pySorted byKeyDesc (xs.map (fun a => (createdKey P a, a))),
          ∃ a ∈ xs, (createdKey P a, a) = q := by
        intro q hq
        exact List.mem_map.mp (hperm.mem_iff.mp hq)
      refine sb_scan_no_branch (fun q hq => ?_) (fun q hq => ?_)
      · rcases hmem q hq with ⟨a, ha, rfl⟩
        exact hwf a ha
      · rcases hmem q hq with ⟨a, ha, rfl⟩
        exact hnone a ha
  · intro hex
    rcases hex with ⟨a0, ha0, ha0t⟩
    have hne : xs ≠ [] := by
      intro h; rw [h] at ha0; simp at ha0
    set keyed := xs.map (fun a => (createdKey P a, a)) with hkeyed
    have hperm := pySorted_perm byKeyDesc keyed
    have hmem : ∀ q ∈ pySorted byKeyDesc keyed, ∃ a ∈ xs, (createdKey P a, a) = q := by
      intro q hq
      exact List.mem_map.mp (hperm.mem_iff.mp hq)
    have hsortmem : (createdKey P a0, a0) ∈ pySorted byKeyDesc keyed := by
      refine hperm.mem_iff.mpr ?_
      exact List.mem_map.mpr ⟨a0, ha0, rfl⟩
    rcases exists_first_split (p := fun q : Nat × Val => (attBranch q.2).truthy)
        ⟨(createdKey P a0, a0), hsortmem, ha0t⟩ with ⟨pre, q, suf, hsplit, hqt, hpre⟩
    have hq_sorted : q ∈ pySorted byKeyDesc keyed := by
      rw [hsplit]
      exact List.mem_append.mpr (Or.inr (List.mem_cons_self ..))
    rcases hmem q hq_sorted with ⟨a, ha, hqa⟩
    have hpair := pySorted_pairwise byKeyDesc_total byKeyDesc_trans keyed
    rw [hsplit] at hpair
    rcases List.pairwise_append.mp hpair with ⟨_, hpair2, _⟩
    rcases List.pairwise_cons.mp hpair2 with ⟨hqsuf, _⟩
    refine ⟨a, ha, by rw [← hqa] at hqt; exact hqt, ?_, ?_, ?_⟩
    · rw [safe_branch_eq hP hdict hne, ← hkeyed, hsplit,
        sb_scan_first (fun r hr => ?_) hpre hqt, ← hqa]
      rcases hmem r (by rw [hsplit]; exact hr) with ⟨x, hx, hxr⟩
      rw [← hxr]
      exact hwf x hx
    · intro b hb hbt
      have hbkey : (createdKey P b, b) ∈ pySorted byKeyDesc keyed :=
        hperm.mem_iff.mpr (List.mem_map.mpr ⟨b, hb, rfl⟩)
      rw [hsplit] at hbkey
      rcases List.mem_append.mp hbkey with hbpre | hbrest
      · exact absurd hbt (by simpa using hpre _ hbpre)
      · rcases List.mem_cons.mp hbrest with heq | hbsuf
        · have : createdKey P b = q.1 := by rw [← heq]
          rw [this, ← hqa]
        · have := hqsuf _ hbsuf
          simp only [byKeyDesc, decide_eq_true_eq] at this
          have hq1 : q.1 = createdKey P a := by rw [← hqa]
          rw [← hq1]
          exact this
    · intro hpos hbex
      rcases hbex with ⟨b, hb, hbt, hbsome⟩
      rcases Option.isSome_iff_exists.mp hbsome with ⟨p, hbt'⟩
      rcases hP _ p (parse_dt_some hbt') with ⟨t, rfl⟩
      have h01 : 0 < t := hpos _ _ (parse_dt_some hbt')
      have hble : createdKey P b ≤ createdKey P a := by
        have hbkey : (createdKey P b, b) ∈ pySorted byKeyDesc keyed :=
          hperm.mem_iff.mpr (List.mem_map.mpr ⟨b, hb, rfl⟩)
        rw [hsplit] at hbkey
        rcases List.mem_append.mp hbkey with hbpre | hbrest
        · exact absurd hbt (by simpa using hpre _ hbpre)
        · rcases List.mem_cons.mp hbrest with heq | hbsuf
          · have : createdKey P b = q.1 := by rw [← heq]
            rw [this, ← hqa]
          · have := hqsuf _ hbsuf
            simp only [byKeyDesc, decide_eq_true_eq] at this
            have hq1 : q.1 = createdKey P a := by rw [← hqa]
            rw [← hq1]
            exact this
      have hbkeyval : createdKey P b = t := by
        rw [createdKey, hbt']
      rcases parse_dt_scalar hP (a.field "createdAt") with hpa | ⟨u, hpa⟩
      · have : createdKey P a = 0 := by rw [createdKey, hpa]
        rw [hbkeyval, this] at hble
        omega
      · rw [hpa]; rfl

/-- Witness for C4 (amended): two attachments, the later-timestamped one
carrying branch `"main"`, listed first; the scan still picks `"main"`. -/
theorem safe_branch_spec_witness :
    (∀ a ∈ [Val.dict [("createdAt", .str "t2"), ("identifier", .dict [("branch", .str "main")])],
        Val.dict [("createdAt", .str "t1"), ("identifier", .dict [("branch", .str "dev")])]],
      wfAttachment a = true)
      ∧ (∃ a ∈ [Val.dict [("createdAt", .str "t2"), ("identifier", .dict [("branch", .str "main")])],
            Val.dict [("createdAt", .str "t1"), ("identifier", .dict [("branch", .str "dev")])]],
          (attBranch a).truthy = true
            ∧ safe_branch_from_attachments
                (fun v => if v.pyEq (.str "t1") then some (Pd.ts 100)
                  else if v.pyEq (.str "t2") then some (Pd.ts 200) else none)
                (.list [Val.dict [("createdAt", .str "t2"),
                    ("identifier", .dict [("branch", .str "main")])],
                  Val.dict [("createdAt", .str "t1"),
                    ("identifier", .dict [("branch", .str "dev")])]]) = .ok (attBranch a)
            ∧ (∀ b ∈ [Val.dict [("createdAt", .str "t2"),
                  ("identifier", .dict [("branch", .str "main")])],
                Val.dict [("createdAt", .str "t1"),
                  ("identifier", .dict [("branch", .str "dev")])]],
                (attBranch b).truthy = true →
                  createdKey (fun v => if v.pyEq (.str "t1") then some (Pd.ts 100)
                    else if v.pyEq (.str "t2") then some (Pd.ts 200) else none) b
                    ≤ createdKey (fun v => if v.pyEq (.str "t1") then some (Pd.ts 100)
                      else if v.pyEq (.str "t2") then some (Pd.ts 200) else none) a)) :=
  ⟨by decide,
    ((safe_branch_spec
        (fun v => if v.pyEq (.str "t1") then some (Pd.ts 100)
          else if v.pyEq (.str "t2") then some (Pd.ts 200) else none)
        (by
          intro v p h
          by_cases h1 : v.pyEq (Val.str "t1") = true
          · simp [h1] at h
            exact ⟨100, h.symm⟩
          · by_cases h2 : v.pyEq (Val.str "t2") = true
            · simp [h1, h2] at h
              exact ⟨200, h.symm⟩
            · simp [h1, h2] at h)
        [Val.dict [("createdAt", .str "t2"), ("identifier", .dict [("branch", .str "main")])],
          Val.dict [("createdAt", .str "t1"), ("identifier", .dict [("branch", .str "dev")])]]
        (by decide)).2.2
      ⟨Val.dict [("createdAt", .str "t2"), ("identifier", .dict [("branch", .str "main")])],
        List.mem_cons_self .., by decide⟩).imp
      (fun a h => ⟨h.1, h.2.1, h.2.2.1, h.2.2.2.1⟩)⟩

/-! ## Lemmas about the history-view bundle resolution -/

theorem name_filter_eq {bundles : List Val} (hwf : ∀ b ∈ bundles, b.isDict = true)
    (name : String) :
    name_filter name bundles
      = .ok (bundles.filter (fun b => (b.field "name").pyEq (.str name))) := by
  induction bundles with
  | nil => rfl
  | cons b rest ih =>
    rw [name_filter, get_field (hwf b (List.mem_cons_self ..)) "name"]
    simp only [pym_bind_ok]
    rw [ih (fun x hx => hwf x (List.mem_cons_of_mem _ hx))]
    simp only [pym_bind_ok]
    rw [List.filter_cons]
    by_cases hm : (b.field "name").pyEq (.str name) = true
    · rw [if_pos hm]; rfl
    · rw [if_neg hm]; rfl

/-- Decorating well-formed candidate bundles with the resolution key
succeeds on the scalar-parse domain and produces the embedded spec-side
keys (the `or` sees a truthy `Timestamp` or falls to the minimum
instant). -/
theorem resolve_decorate {P : Val → Option Pd} (hP : ScalarParse P) {xs : List Val}
    (h : ∀ a ∈ xs, a.isDict = true) :
    xs.mapM (fun b => do
        let c ← b.get "createdAt"
        let k ← pdOrMin (parse_dt P c)
        return (k, b))
      = .ok (embedKeys (xs.map (fun b => (createdKey P b, b)))) := by
  induction xs with
  | nil => rfl
  | cons a rest ih =>
    rw [List.mapM_cons, get_field (h a (List.mem_cons_self ..)) "createdAt"]
    simp only [pym_bind_ok]
    have hk : pdOrMin (parse_dt P (a.field "createdAt")) = .ok (Pd.ts (createdKey P a)) := by
      rcases parse_dt_scalar hP (a.field "createdAt") with h0 | ⟨t, h1⟩
      · rw [createdKey, h0]; rfl
      · rw [createdKey, h1]; rfl
    rw [hk]
    simp only [pym_bind_ok]
    rw [ih (fun x hx => h x (List.mem_cons_of_mem _ hx))]
    rfl

/-- Claim C7, counterexample: the claim as stated is false.  For a bundle
whose `createdAt` is a list, `pd.to_datetime` succeeds and returns a
`DatetimeIndex`, which `parse_dt` passes through; the sort key expression
then evaluates `DatetimeIndex or Timestamp.min`, and the truth test of a
`DatetimeIndex` raises `ValueError` unconditionally — the view raises
instead of resolving the name. -/
theorem resolve_not_as_claimed :
    resolve_bundle_id
        (fun v => match v with
          | .list _ => some (.vec [10, 40])
          | .str "2023-06-01T00:00:00Z" => some (.ts 200)
          | _ => none)
        [.dict [("name", .str "B"),
            ("createdAt", .list [.str "2023-01-01", .str "2023-02-01"]),
            ("id", .str "id1")],
          .dict [("name", .str "B"), ("createdAt", .str "2023-06-01T00:00:00Z"),
            ("id", .str "id2")]] "B"
      = .error () := rfl

/-- Claim C7, amended — provided every bundle's `createdAt` either fails
to parse or parses to a scalar timestamp (`ScalarParse`), the history
view resolves a selected bundle name to the identifier of a bundle
carrying that name whose creation-timestamp key is maximal among all
same-named bundles (unparseable timestamps keyed as the minimum instant
`0`).  Outside this domain the original claim fails: a list-valued
`createdAt` makes the key expression raise (see the counterexample), and
a `NaT` result is kept as an incomparable key instead of the minimum
instant. -/
theorem resolve_picks_latest (P : Val → Option Pd) (hP : ScalarParse P)
    (bundles : List Val) (name : String)
    (hwf : ∀ b ∈ bundles, b.isDict = true)
    (hex : ∃ b ∈ bundles, (b.field "name").pyEq (.str name) = true) :
    ∃ b ∈ bundles, (b.field "name").pyEq (.str name) = true
      ∧ resolve_bundle_id P bundles name = .ok (b.field "id")
      ∧ ∀ c ∈ bundles, (c.field "name").pyEq (.str name) = true →
          createdKey P c ≤ createdKey P b := by
  set matchp : Val → Bool := fun b => (b.field "name").pyEq (.str name) with hmatchp
  set cand := bundles.filter matchp with hcand
  have hcandwf : ∀ b ∈ cand, b.isDict = true := by
    intro b hb
    exact hwf b (List.mem_filter.mp hb).1
  have hres : resolve_bundle_id P bundles name
      = (match pySorted byKeyDesc (cand.map (fun b => (createdKey P b, b))) with
        | [] => pure .null
        | (_, b) :: _ => b.get "id") := by
    rw [resolve_bundle_id, name_filter_eq hwf name]
    simp only [pym_bind_ok]
    rw [← hmatchp, ← hcand, resolve_decorate hP hcandwf]
    simp only [pym_bind_ok]
    rw [pySortedM_scalar]
    simp only [pym_bind_ok]
    cases pySorted byKeyDesc (cand.map (fun b => (createdKey P b, b))) with
    | nil => rfl
    | cons q tail => rfl
  set keyed := cand.map (fun b => (createdKey P b, b)) with hkeyed
  have hperm := pySorted_perm byKeyDesc keyed
  cases hsorted : pySorted byKeyDesc keyed with
  | nil =>
    rcases hex with ⟨b0, hb0, hb0m⟩
    have : (createdKey P b0, b0) ∈ pySorted byKeyDesc keyed := by
      refine hperm.mem_iff.mpr (List.mem_map.mpr ⟨b0, ?_, rfl⟩)
      exact List.mem_filter.mpr ⟨hb0, hb0m⟩
    rw [hsorted] at this
    simp at this
  | cons q tail =>
    have hq_mem : q ∈ pySorted byKeyDesc keyed := by
      rw [hsorted]; exact List.mem_cons_self ..
    rcases List.mem_map.mp (hperm.mem_iff.mp hq_mem) with ⟨b, hbcand, hqb⟩
    rcases List.mem_filter.mp hbcand with ⟨hbmem, hbmatch⟩
    have hpair := pySorted_pairwise byKeyDesc_total byKeyDesc_trans keyed
    rw [hsorted] at hpair
    rcases List.pairwise_cons.mp hpair with ⟨hqtail, _⟩
    refine ⟨b, hbmem, hbmatch, ?_, ?_⟩
    · rw [hres, hsorted]
      obtain ⟨k, bv⟩ := q
      have hbv : bv = b := by
        have := congrArg Prod.snd hqb
        simpa using this.symm
      rw [hbv]
      exact get_field (hwf b hbmem) "id"
    · intro c hc hcm
      have hckey : (createdKey P c, c) ∈ pySorted byKeyDesc keyed := by
        refine hperm.mem_iff.mpr (List.mem_map.mpr ⟨c, ?_, rfl⟩)
        exact List.mem_filter.mpr ⟨hc, hcm⟩
      rw [hsorted] at hckey
      rcases List.mem_cons.mp hckey with heq | htail
      · have : createdKey P c = q.1 := by rw [← heq]
        rw [this, ← hqb]
      · have := hqtail _ htail
        simp only [byKeyDesc, decide_eq_true_eq] at this
        have hq1 : q.1 = createdKey P b := by rw [← hqb]
        rw [← hq1]
        exact this

/-- Witness for C7 (amended): the spec's end-to-end example — two bundles
named `"B"` created 2023-01-01 and 2023-06-01; the view resolves to the
later one's identifier `"id2"`. -/
theorem resolve_picks_latest_witness :
    (∃ b ∈ [Val.dict [("name", .str "B"), ("createdAt", .str "2023-01-01T00:00:00Z"),
          ("id", .str "id1")],
        Val.dict [("name", .str "B"), ("createdAt", .str "2023-06-01T00:00:00Z"),
          ("id", .str "id2")]],
      (b.field "name").pyEq (.str "B") = true
        ∧ resolve_bundle_id
            (fun v => if v.pyEq (.str "2023-01-01T00:00:00Z") then some (Pd.ts 1672531200)
              else if v.pyEq (.str "2023-06-01T00:00:00Z") then some (Pd.ts 1685577600)
              else none)
            [Val.dict [("name", .str "B"), ("createdAt", .str "2023-01-01T00:00:00Z"),
                ("id", .str "id1")],
              Val.dict [("name", .str "B"), ("createdAt", .str "2023-06-01T00:00:00Z"),
                ("id", .str "id2")]] "B" = .ok (b.field "id"))
      ∧ resolve_bundle_id
          (fun v => if v.pyEq (.str "2023-01-01T00:00:00Z") then some (Pd.ts 1672531200)
            else if v.pyEq (.str "2023-06-01T00:00:00Z") then some (Pd.ts 1685577600)
            else none)
          [Val.dict [("name", .str "B"), ("createdAt", .str "2023-01-01T00:00:00Z"),
              ("id", .str "id1")],
            Val.dict [("name", .str "B"), ("createdAt", .str "2023-06-01T00:00:00Z"),
              ("id", .str "id2")]] "B" = .ok (.str "id2") :=
  ⟨((resolve_picks_latest
      (fun v => if v.pyEq (.str "2023-01-01T00:00:00Z") then some (Pd.ts 1672531200)
        else if v.pyEq (.str "2023-06-01T00:00:00Z") then some (Pd.ts 1685577600)
        else none)
      (by
        intro v p h
        by_cases h1 : v.pyEq (Val.str "2023-01-01T00:00:00Z") = true
        · simp [h1] at h
          exact ⟨1672531200, h.symm⟩
        · by_cases h2 : v.pyEq (Val.str "2023-06-01T00:00:00Z") = true
          · simp [h1, h2] at h
            exact ⟨1685577600, h.symm⟩
          · simp [h1, h2] at h)
      [Val.dict [("name", .str "B"), ("createdAt", .str "2023-01-01T00:00:00Z"),
          ("id", .str "id1")],
        Val.dict [("name", .str "B"), ("createdAt", .str "2023-06-01T00:00:00Z"),
          ("id", .str "id2")]] "B" (by decide)
      ⟨Val.dict [("name", .str "B"), ("createdAt", .str "2023-01-01T00:00:00Z"),
        ("id", .str "id1")], List.mem_cons_self .., by decide⟩).imp
      (fun b h => ⟨h.1, h.2.1, h.2.2.1⟩)), rfl⟩

/-! ## Lemmas about `_before_after` and `_pull_stage_name` -/

theorem pym_isOk_iff {x : PyM α} : x.isOk = true ↔ ∃ a, x = .ok a := by
  cases x with
  | ok a => exact ⟨fun _ => ⟨a, rfl⟩, fun _ => rfl⟩
  | error e => exact ⟨Bool.noConfusion, fun ⟨a, h⟩ => Except.noConfusion h⟩

theorem pyEq_str {v : Val} {s : String} (h : v.pyEq (.str s) = true) : v = .str s := by
  cases v with
  | str s2 =>
    have : s2 = s := by simpa [Val.pyEq] using h
    rw [this]
  | null => exact Bool.noConfusion h
  | bool b => exact Bool.noConfusion h
  | int n => exact Bool.noConfusion h
  | list xs => simp [Val.pyEq] at h
  | dict kvs => simp [Val.pyEq] at h

/-- On a field whose truthy values are lists of dicts, `firstName` computes
the spec-side first-name value. -/
theorem firstName_eq {v : Val} (h : listOfDictsWhenTruthy v = true) :
    firstName (v.orElse (.list [])) = .ok (firstNameSpec v) := by
  cases ht : v.truthy with
  | false =>
    rw [firstNameSpec, Val.orElse, ht]
    rfl
  | true =>
    have hlist : ∃ x rest, v = Val.list (x :: rest) ∧ x.isDict = true := by
      cases v with
      | list xs =>
        cases xs with
        | nil => exact Bool.noConfusion ht
        | cons x rest =>
          refine ⟨x, rest, rfl, ?_⟩
          have hall : (x :: rest).all Val.isDict = true := by
            simpa [listOfDictsWhenTruthy, ht] using h
          have := List.all_eq_true.mp hall x (List.mem_cons_self ..)
          simpa using this
      | null => exact Bool.noConfusion ht
      | bool b => simp [listOfDictsWhenTruthy, ht] at h
      | int n => simp [listOfDictsWhenTruthy, ht] at h
      | str s => simp [listOfDictsWhenTruthy, ht] at h
      | dict kvs => simp [listOfDictsWhenTruthy, ht] at h
    rcases hlist with ⟨x, rest, rfl, hx⟩
    have h1 : firstName ((Val.list (x :: rest)).orElse (.list []))
        = x.get "name" >>= fun nm =>
            if nm.truthy then pure nm else pure (.str "Unassigned") := rfl
    rw [h1, get_field hx "name"]
    simp only [pym_bind_ok]
    have h2 : (Val.list (x :: rest)).orElse (.list []) = Val.list (x :: rest) := rfl
    by_cases hn : (x.field "name").truthy = true
    · rw [if_pos hn, firstNameSpec, h2]
      simp only [if_pos hn]
      rfl
    · rw [if_neg hn, firstNameSpec, h2]
      simp only [if_neg hn]
      rfl

theorem wfFieldChange_parts {fc : Val} (h : wfFieldChange fc = true) :
    fc.isDict = true
      ∧ listOfDictsWhenTruthy (fc.field "added") = true
      ∧ listOfDictsWhenTruthy (fc.field "removed") = true := by
  obtain ⟨⟨h1, h2⟩, h3⟩ :
      (fc.isDict = true ∧ listOfDictsWhenTruthy (fc.field "added") = true)
        ∧ listOfDictsWhenTruthy (fc.field "removed") = true := by
    simpa [wfFieldChange, Bool.and_eq_true] using h
  exact ⟨h1, h2, h3⟩

/-- An unrecognized field change makes the inner scan continue
(`None`). -/
theorem before_after_fc_skip {fc : Val} (hwf : wfFieldChange fc = true)
    (h : recognizedFC fc = false) :
    before_after_fc fc = .ok none := by
  have hd := (wfFieldChange_parts hwf).1
  obtain ⟨⟨hstage, hstate⟩, hassignee⟩ :
      ((fc.field "fieldName").pyEq (.str "stage") = false
          ∧ (fc.field "fieldName").pyEq (.str "state") = false)
        ∧ (fc.field "fieldName").pyEq (.str "assignee") = false := by
    simpa [recognizedFC] using h
  rw [before_after_fc, get_field hd "fieldName"]
  simp only [pym_bind_ok]
  rw [if_neg (by simp [hstage, hstate]), if_neg (by simp [hassignee])]
  rfl

/-- A field change named `assignee` resolves to the first removed / first
added names (or `"Unassigned"`). -/
theorem before_after_fc_assignee {fc : Val} (hwf : wfFieldChange fc = true)
    (h : (fc.field "fieldName").pyEq (.str "assignee") = true) :
    before_after_fc fc
      = .ok (some (firstNameSpec (fc.field "removed"),
          firstNameSpec (fc.field "added"), .str "assignee")) := by
  obtain ⟨hd, hadd, hrem⟩ := wfFieldChange_parts hwf
  have hfield : fc.field "fieldName" = .str "assignee" := pyEq_str h
  rw [before_after_fc, get_field hd "fieldName"]
  simp only [pym_bind_ok]
  rw [hfield]
  rw [if_neg (by decide), if_pos (by decide)]
  rw [get_field hd "added"]
  simp only [pym_bind_ok]
  rw [get_field hd "removed"]
  simp only [pym_bind_ok]
  rw [firstName_eq hrem]
  simp only [pym_bind_ok]
  rw [firstName_eq hadd]
  simp only [pym_bind_ok]
  rfl

/-- A well-formed field change is scanned without raising. -/
theorem before_after_fc_isOk {fc : Val} (hwf : wfFieldChange fc = true) :
    (before_after_fc fc).isOk = true := by
  obtain ⟨hd, hadd, hrem⟩ := wfFieldChange_parts hwf
  rw [before_after_fc, get_field hd "fieldName"]
  simp only [pym_bind_ok]
  by_cases h1 : ((fc.field "fieldName").pyEq (.str "stage")
      || (fc.field "fieldName").pyEq (.str "state")) = true
  · rw [if_pos h1, get_field hd "before"]
    simp only [pym_bind_ok]
    rw [get_field hd "after"]
    simp only [pym_bind_ok]
    rfl
  · rw [if_neg h1]
    by_cases h2 : (fc.field "fieldName").pyEq (.str "assignee") = true
    · rw [if_pos h2, get_field hd "added"]
      simp only [pym_bind_ok]
      rw [get_field hd "removed"]
      simp only [pym_bind_ok]
      rw [firstName_eq hrem]
      simp only [pym_bind_ok]
      rw [firstName_eq hadd]
      simp only [pym_bind_ok]
      rfl
    · rw [if_neg h2]
      rfl

theorem bfa_scanFCs_append (xs ys : List Val) :
    bfa_scanFCs (xs ++ ys)
      = bfa_scanFCs xs >>= fun r =>
          match r with
          | some v => pure (some v)
          | none => bfa_scanFCs ys := by
  induction xs with
  | nil => rfl
  | cons fc rest ih =>
    rw [List.cons_append, bfa_scanFCs, bfa_scanFCs]
    cases h : before_after_fc fc with
    | error e => rfl
    | ok r =>
      cases r with
      | some v => rfl
      | none => simpa using ih

/-- Scanning a list of unrecognized well-formed field changes yields
`None`. -/
theorem bfa_scanFCs_none {l : List Val} (hwf : ∀ fc ∈ l, wfFieldChange fc = true)
    (h : ∀ fc ∈ l, recognizedFC fc = false) :
    bfa_scanFCs l = .ok none := by
  induction l with
  | nil => rfl
  | cons fc rest ih =>
    rw [bfa_scanFCs,
      before_after_fc_skip (hwf fc (List.mem_cons_self ..)) (h fc (List.mem_cons_self ..))]
    simpa using ih (fun x hx => hwf x (List.mem_cons_of_mem _ hx))
      (fun x hx => h x (List.mem_cons_of_mem _ hx))

/-- Scanning stops at the first recognized field change. -/
theorem bfa_scanFCs_first {pre : List Val} {fc : Val} {rest : List Val}
    (hwf : ∀ g ∈ pre, wfFieldChange g = true)
    (hpre : ∀ g ∈ pre, recognizedFC g = false) :
    bfa_scanFCs (pre ++ fc :: rest)
      = before_after_fc fc >>= fun r =>
          match r with
          | some v => pure (some v)
          | none => bfa_scanFCs rest := by
  rw [bfa_scanFCs_append, bfa_scanFCs_none hwf hpre]
  simp only [pym_bind_ok]
  rfl

theorem bfa_scanFCs_isOk {l : List Val} (hwf : ∀ fc ∈ l, wfFieldChange fc = true) :
    (bfa_scanFCs l).isOk = true := by
  induction l with
  | nil => rfl
  | cons fc rest ih =>
    rw [bfa_scanFCs]
    rcases pym_isOk_iff.mp (before_after_fc_isOk (hwf fc (List.mem_cons_self ..)))
      with ⟨r, hr⟩
    rw [hr]
    simp only [pym_bind_ok]
    cases r with
    | some v => rfl
    | none => simpa using ih (fun x hx => hwf x (List.mem_cons_of_mem _ hx))

theorem wfTarget_parts {t : Val} (h : wfTarget t = true) :
    t.isDict = true ∧ wfListField wfFieldChange t "fieldChanges" = true := by
  simpa [wfTarget, Bool.and_eq_true] using h

/-- A well-formed target's `fieldChanges` value iterates to the spec-side
list. -/
theorem targetFCs_iter {t : Val} (h : wfTarget t = true) :
    ((t.fieldOpt "fieldChanges").getD (.list [])).iter = .ok (targetFCs t) := by
  obtain ⟨_, hl⟩ := wfTarget_parts h
  rcases wfListField_cases hl with h0 | ⟨fcs, h1, _⟩
  · rw [targetFCs, h0]; rfl
  · rw [targetFCs, h1]; rfl

theorem targetFCs_wf {t : Val} (h : wfTarget t = true) :
    ∀ fc ∈ targetFCs t, wfFieldChange fc = true := by
  obtain ⟨_, hl⟩ := wfTarget_parts h
  rcases wfListField_cases hl with h0 | ⟨fcs, h1, h2⟩
  · rw [targetFCs, h0]; simp
  · rw [targetFCs, h1]; exact h2

/-- The outer target loop equals the scan of the flattened field-change
list. -/
theorem bfa_scanTargets_eq {ts : List Val} (hwf : ∀ t ∈ ts, wfTarget t = true) :
    bfa_scanTargets ts = bfa_scanFCs (ts.flatMap targetFCs) := by
  induction ts with
  | nil => rfl
  | cons t rest ih =>
    have ht := hwf t (List.mem_cons_self ..)
    rw [bfa_scanTargets, getD_fieldOpt (wfTarget_parts ht).1 "fieldChanges" (.list [])]
    simp only [pym_bind_ok]
    rw [targetFCs_iter ht]
    simp only [pym_bind_ok]
    rw [List.flatMap_cons, bfa_scanFCs_append]
    rcases pym_isOk_iff.mp (bfa_scanFCs_isOk (targetFCs_wf ht)) with ⟨r, hr⟩
    rw [hr]
    simp only [pym_bind_ok]
    cases r with
    | some v => rfl
    | none => simpa using ih (fun x hx => hwf x (List.mem_cons_of_mem _ hx))

theorem wfEvent_parts {e : Val} (h : wfEvent e = true) :
    e.isDict = true ∧ wfListField wfTarget e "targets" = true
      ∧ wfListField Val.isDict e "affecting" = true := by
  obtain ⟨⟨h1, h2⟩, h3⟩ :
      (e.isDict = true ∧ wfListField wfTarget e "targets" = true)
        ∧ wfListField Val.isDict e "affecting" = true := by
    simpa [wfEvent, Bool.and_eq_true] using h
  exact ⟨h1, h2, h3⟩

theorem eventTargets_iter {e : Val} (h : wfEvent e = true) :
    ((e.fieldOpt "targets").getD (.list [])).iter = .ok (eventTargets e) := by
  obtain ⟨_, hl, _⟩ := wfEvent_parts h
  rcases wfListField_cases hl with h0 | ⟨ts, h1, _⟩
  · rw [eventTargets, h0]; rfl
  · rw [eventTargets, h1]; rfl

theorem eventTargets_wf {e : Val} (h : wfEvent e = true) :
    ∀ t ∈ eventTargets e, wfTarget t = true := by
  obtain ⟨_, hl, _⟩ := wfEvent_parts h
  rcases wfListField_cases hl with h0 | ⟨ts, h1, h2⟩
  · rw [eventTargets, h0]; simp
  · rw [eventTargets, h1]; exact h2

theorem eventFCs_wf {e : Val} (h : wfEvent e = true) :
    ∀ fc ∈ eventFCs e, wfFieldChange fc = true := by
  intro fc hfc
  rcases List.mem_flatMap.mp hfc with ⟨t, ht, hfc'⟩
  exact targetFCs_wf (eventTargets_wf h t ht) fc hfc'

/-- The function `_before_after` factors through the flattened field-change scan. -/
theorem before_after_eq {e : Val} (h : wfEvent e = true) :
    before_after e
      = bfa_scanFCs (eventFCs e) >>= fun r =>
          match r with
          | some v => pure v
          | none => pure (.str "", .str "", .str "") := by
  rw [before_after, getD_fieldOpt (wfEvent_parts h).1 "targets" (.list [])]
  simp only [pym_bind_ok]
  rw [eventTargets_iter h]
  simp only [pym_bind_ok]
  rw [bfa_scanTargets_eq (eventTargets_wf h)]
  rw [eventFCs]

/-! ## Claim C8 — before/after diff extraction -/

/-- Claim C8 — on a well-formed event, `_before_after` returns the empty
triple when no field change is recognized, and when the first recognized
field change (in target-then-field-change scan order) is an `assignee`
change it returns the first removed assignee's name (or `"Unassigned"`),
the first added assignee's name (or `"Unassigned"`), and the field name
`"assignee"`. -/
theorem before_after_spec (e : Val) (hwf : wfEvent e = true) :
    ((∀ fc ∈ eventFCs e, recognizedFC fc = false) →
        before_after e = .ok (.str "", .str "", .str ""))
      ∧ (∀ pre fc rest, eventFCs e = pre ++ fc :: rest →
          (∀ g ∈ pre, recognizedFC g = false) →
          (fc.field "fieldName").pyEq (.str "assignee") = true →
          before_after e
            = .ok (firstNameSpec (fc.field "removed"),
                firstNameSpec (fc.field "added"), .str "assignee")) := by
  constructor
  · intro h
    rw [before_after_eq hwf, bfa_scanFCs_none (eventFCs_wf hwf) h]
    rfl
  · intro pre fc rest hsplit hpre hfc
    have hwfall := eventFCs_wf hwf
    rw [hsplit] at hwfall
    rw [before_after_eq hwf, hsplit,
      bfa_scanFCs_first (fun g hg => hwfall g (List.mem_append.mpr (Or.inl hg))) hpre,
      before_after_fc_assignee
        (hwfall fc (List.mem_append.mpr (Or.inr (List.mem_cons_self ..)))) hfc]
    rfl

/-- Witness for C8: the spec's example event whose only field change is
`\x7b"fieldName": "assignee", "removed": [], "added": [\x7b"name": "Alice"\x7d]\x7d`;
extraction yields `("Unassigned", "Alice", "assignee")`. -/
theorem before_after_spec_witness :
    wfEvent (.dict [("targets", .list [.dict [("fieldChanges", .list
        [.dict [("fieldName", .str "assignee"), ("removed", .list []),
          ("added", .list [.dict [("name", .str "Alice")]])]])]])]) = true
      ∧ before_after (.dict [("targets", .list [.dict [("fieldChanges", .list
          [.dict [("fieldName", .str "assignee"), ("removed", .list []),
            ("added", .list [.dict [("name", .str "Alice")]])]])]])])
        = .ok (.str "Unassigned", .str "Alice", .str "assignee") :=
  ⟨by decide,
    (before_after_spec (.dict [("targets", .list [.dict [("fieldChanges", .list
        [.dict [("fieldName", .str "assignee"), ("removed", .list []),
          ("added", .list [.dict [("name", .str "Alice")]])]])]])]) (by decide)).2
      [] (.dict [("fieldName", .str "assignee"), ("removed", .list []),
        ("added", .list [.dict [("name", .str "Alice")]])]) [] rfl
      (by simp) (by decide)⟩

/-! ## Totality lemmas -/

theorem mapM_get_createdAt {xs : List Val} (h : ∀ a ∈ xs, a.isDict = true) :
    xs.mapM (fun att => att.get "createdAt")
      = .ok (xs.map (fun att => att.field "createdAt")) := by
  induction xs with
  | nil => rfl
  | cons a rest ih =>
    rw [List.mapM_cons, get_field (h a (List.mem_cons_self ..)) "createdAt"]
    simp only [pym_bind_ok]
    rw [ih (fun x hx => h x (List.mem_cons_of_mem _ hx))]
    rfl

theorem pyGt_ts (a b : Nat) : Pd.pyGt (.ts a) (.ts b) = .ok (decide (b < a)) := rfl

/-- Python `max` never raises over scalar timestamps. -/
theorem pyMaxGo_scalar_isOk (rest : List Pd) :
    ∀ best : Pd, (∃ t, best = Pd.ts t) →
      (∀ p ∈ rest, ∃ u, p = Pd.ts u) → (pyMaxGo best rest).isOk = true := by
  induction rest with
  | nil =>
    intro best _ _
    rfl
  | cons c cs ih =>
    intro best hbest hall
    rcases hbest with ⟨t, rfl⟩
    rcases hall c (List.mem_cons_self ..) with ⟨u, rfl⟩
    rw [pyMaxGo, pyGt_ts]
    simp only [pym_bind_ok]
    refine ih _ ?_ (fun p hp => hall p (List.mem_cons_of_mem _ hp))
    by_cases hcmp : decide (t < u) = true
    · rw [if_pos hcmp]; exact ⟨u, rfl⟩
    · rw [if_neg hcmp]; exact ⟨t, rfl⟩

theorem compute_last_updated_isOk {P : Val → Option Pd} (hP : ScalarParse P) {b : Val}
    (hb : wfBundle b = true) :
    (compute_last_updated P b).isOk = true := by
  obtain ⟨⟨hd, _⟩, hatt⟩ :
      (b.isDict = true ∧ wfListField wfStageEntry b "stages" = true)
        ∧ wfListField wfAttachment b "attachments" = true := by
    simpa [wfBundle, Bool.and_eq_true] using hb
  rw [compute_last_updated, get_field hd "createdAt"]
  simp only [pym_bind_ok]
  rw [getD_fieldOpt hd "attachments" (.list [])]
  simp only [pym_bind_ok]
  rcases wfListField_cases hatt with h0 | ⟨xs, h1, h2⟩
  · rw [h0]
    rcases parse_dt_scalar hP (b.field "createdAt") with hp | ⟨t, hp⟩
    · rw [hp]; rfl
    · rw [hp]; rfl
  · rw [h1]
    have hiter : (Val.list xs).iter = .ok xs := rfl
    show (((some (Val.list xs)).getD (.list [])).iter >>= _).isOk = true
    rw [show ((some (Val.list xs)).getD (Val.list [])) = Val.list xs from rfl, hiter]
    simp only [pym_bind_ok]
    rw [mapM_get_createdAt (fun a ha => wfAttachment_isDict (h2 a ha))]
    simp only [pym_bind_ok]
    have hsc : ∀ p ∈ (parse_dt P (b.field "createdAt")
        :: (xs.map (fun att => att.field "createdAt")).map (parse_dt P)).filterMap id,
        ∃ u, p = Pd.ts u := by
      intro p hp
      rcases List.mem_filterMap.mp hp with ⟨o, ho, hop⟩
      have hop' : o = some p := hop
      rcases List.mem_cons.mp ho with rfl | hmem
      · rcases hP _ p (parse_dt_some hop') with ⟨u, rfl⟩
        exact ⟨u, rfl⟩
      · rcases List.mem_map.mp hmem with ⟨w, _, rfl⟩
        rcases hP _ p (parse_dt_some hop') with ⟨u, rfl⟩
        exact ⟨u, rfl⟩
    cases hc : (parse_dt P (b.field "createdAt")
        :: (xs.map (fun att => att.field "createdAt")).map (parse_dt P)).filterMap id with
    | nil => rfl
    | cons c cs =>
      have hbest : ∃ u, c = Pd.ts u :=
        hsc c (by rw [hc]; exact List.mem_cons_self ..)
      have hall : ∀ p ∈ cs, ∃ u, p = Pd.ts u :=
        fun p hp => hsc p (by rw [hc]; exact List.mem_cons_of_mem _ hp)
      show (pyMaxGo c cs >>= fun m => (pure (some m) : PyM (Option Pd))).isOk = true
      rcases pym_isOk_iff.mp (pyMaxGo_scalar_isOk cs c hbest hall) with ⟨m, hm⟩
      rw [hm]
      simp only [pym_bind_ok]
      rfl

theorem days_in_current_stage_neg_one {P : Val → Option Pd} {b : Val}
    (h : compute_last_updated P b = .ok none) :
    days_in_current_stage P b = .ok (-1) := by
  rw [days_in_current_stage, h]
  rfl

theorem sb_scan_isOk {l : List (Nat × Val)}
    (hwf : ∀ q ∈ l, wfAttachment q.2 = true) :
    (sb_scan l).isOk = true := by
  induction l with
  | nil => rfl
  | cons q rest ih =>
    obtain ⟨hd, hid⟩ : q.2.isDict = true ∧ dictWhenTruthy (q.2.field "identifier") = true := by
      simpa [wfAttachment, Bool.and_eq_true] using hwf q (List.mem_cons_self ..)
    obtain ⟨k, a⟩ := q
    rw [sb_scan, get_field hd "identifier"]
    simp only [pym_bind_ok]
    rw [orElse_get hid "branch"]
    simp only [pym_bind_ok]
    by_cases hb : (((a.field "identifier").orElse (.dict [])).field "branch").truthy = true
    · rw [if_pos hb]; rfl
    · rw [if_neg hb]
      exact ih (fun x hx => hwf x (List.mem_cons_of_mem _ hx))

theorem safe_branch_isOk {P : Val → Option Pd} (hP : ScalarParse P) {xs : List Val}
    (hwf : ∀ a ∈ xs, wfAttachment a = true) :
    (safe_branch_from_attachments P (.list xs)).isOk = true := by
  cases hxs : xs with
  | nil => rfl
  | cons x r =>
    rw [← hxs, safe_branch_eq hP (fun a ha => wfAttachment_isDict (hwf a ha))
      (by rw [hxs]; simp)]
    refine sb_scan_isOk (fun q hq => ?_)
    rcases List.mem_map.mp
        ((pySorted_perm byKeyDesc _).mem_iff.mp hq) with ⟨a, ha, rfl⟩
    exact hwf a ha

theorem before_after_isOk {e : Val} (h : wfEvent e = true) :
    (before_after e).isOk = true := by
  rw [before_after_eq h]
  rcases pym_isOk_iff.mp (bfa_scanFCs_isOk (eventFCs_wf h)) with ⟨r, hr⟩
  rw [hr]
  simp only [pym_bind_ok]
  cases r with
  | some v => rfl
  | none => rfl

theorem pull_affecting_scan_isOk {l : List Val} (h : ∀ a ∈ l, a.isDict = true) :
    (pull_affecting_scan l).isOk = true := by
  induction l with
  | nil => rfl
  | cons a rest ih =>
    have hd := h a (List.mem_cons_self ..)
    rw [pull_affecting_scan, get_field hd "entityType"]
    simp only [pym_bind_ok]
    by_cases h1 : (a.field "entityType").pyEq (.str "governancePolicyStage") = true
    · rw [if_pos h1, get_field hd "name"]
      simp only [pym_bind_ok]
      by_cases h2 : (a.field "name").truthy = true
      · rw [if_pos h2]; rfl
      · rw [if_neg h2]
        exact ih (fun x hx => h x (List.mem_cons_of_mem _ hx))
    · rw [if_neg h1]
      exact ih (fun x hx => h x (List.mem_cons_of_mem _ hx))

theorem pull_fc_scan_isOk {l : List Val} (h : ∀ fc ∈ l, fc.isDict = true) :
    (pull_fc_scan l).isOk = true := by
  induction l with
  | nil => rfl
  | cons fc rest ih =>
    have hd := h fc (List.mem_cons_self ..)
    rw [pull_fc_scan, get_field hd "fieldName"]
    simp only [pym_bind_ok]
    by_cases h1 : (fc.field "fieldName").pyEq (.str "stage") = true
    · rw [if_pos h1, get_field hd "before"]
      simp only [pym_bind_ok]
      rw [get_field hd "after"]
      simp only [pym_bind_ok]
      rfl
    · rw [if_neg h1]
      exact ih (fun x hx => h x (List.mem_cons_of_mem _ hx))

theorem pull_target_scan_isOk {ts : List Val} (h : ∀ t ∈ ts, wfTarget t = true) :
    (pull_target_scan ts).isOk = true := by
  induction ts with
  | nil => rfl
  | cons t rest ih =>
    have ht := h t (List.mem_cons_self ..)
    rw [pull_target_scan, getD_fieldOpt (wfTarget_parts ht).1 "fieldChanges" (.list [])]
    simp only [pym_bind_ok]
    rw [targetFCs_iter ht]
    simp only [pym_bind_ok]
    rcases pym_isOk_iff.mp
        (pull_fc_scan_isOk (fun fc hfc =>
          (wfFieldChange_parts (targetFCs_wf ht fc hfc)).1)) with ⟨r, hr⟩
    rw [hr]
    simp only [pym_bind_ok]
    cases r with
    | some v => rfl
    | none =>
      simpa using ih (fun x hx => h x (List.mem_cons_of_mem _ hx))

theorem pull_stage_name_isOk {e : Val} (h : wfEvent e = true) :
    (pull_stage_name e).isOk = true := by
  obtain ⟨hd, _, haff⟩ := wfEvent_parts h
  rw [pull_stage_name, getD_fieldOpt hd "affecting" (.list [])]
  simp only [pym_bind_ok]
  have hiter : ∃ al, ((e.fieldOpt "affecting").getD (.list [])).iter = .ok al
      ∧ ∀ a ∈ al, a.isDict = true := by
    rcases wfListField_cases haff with h0 | ⟨xs, h1, h2⟩
    · rw [h0]; exact ⟨[], rfl, by simp⟩
    · rw [h1]; exact ⟨xs, rfl, h2⟩
  rcases hiter with ⟨al, hal, halwf⟩
  rw [hal]
  simp only [pym_bind_ok]
  rcases pym_isOk_iff.mp (pull_affecting_scan_isOk halwf) with ⟨r, hr⟩
  rw [hr]
  simp only [pym_bind_ok]
  cases r with
  | some nm => rfl
  | none =>
    rw [getD_fieldOpt hd "targets" (.list [])]
    simp only [pym_bind_ok]
    rw [eventTargets_iter h]
    simp only [pym_bind_ok]
    rcases pym_isOk_iff.mp (pull_target_scan_isOk (eventTargets_wf h)) with ⟨r2, hr2⟩
    rw [hr2]
    simp only [pym_bind_ok]
    cases r2 with
    | some s => rfl
    | none => rfl

/-! ## Claim C3 — totality of the transform layer -/

/-- Claim C3, counterexample: the blanket totality claim is false — a
bundle whose `attachments` key is present with value `None` makes
`compute_last_updated` raise (`for att in bundle.get("attachments", [])`
iterates `None`, a `TypeError`), because `dict.get(k, default)` only
substitutes the default for an absent key. -/
theorem transforms_not_total :
    compute_last_updated (fun _ => none) (.dict [("attachments", .null)]) = .error () := rfl

/-- Claim C3, amended — every transform-layer function of §4 returns a
defined value and never raises on inputs whose collection positions
(`stages`, `attachments`, `targets`, `fieldChanges`, `affecting`,
`added`, `removed`), when present and truthy, hold lists of objects and
whose nested object positions (`stage`, `assignee`, `identifier`), when
truthy, hold objects — absent keys, null/empty leaf fields and empty
collections included; `parse_dt` and `order_stages_like_humans` are total
for every input by construction (they are plain option- and list-valued
functions, see their definitions).  Two carve-outs remain, each forced by
a failure of the original claim: `days_in_current_stage` is total only on
its `-1` branch (when nothing parses) — its other branch always raises,
see C2; and the timestamp-consuming functions (`compute_last_updated`,
`safe_branch_from_attachments`) additionally require the `createdAt`
values to parse to scalar timestamps or fail (`ScalarParse`): a
`createdAt` for which `to_datetime` returns a `DatetimeIndex` flows
through `parse_dt` and makes `max` / the sort comparison raise
`ValueError` on its ambiguous truth test. -/
theorem transforms_total_on_wf (P : Val → Option Pd) (hP : ScalarParse P) :
    (∀ (ss : List Val) (name : String), (∀ s ∈ ss, wfStageEntry s = true) →
        (stage_assignee_for_name (.list ss) name).isOk = true)
      ∧ (∀ b, wfBundle b = true → (current_stage_assignee b).isOk = true)
      ∧ (∀ b, wfBundle b = true → (compute_last_updated P b).isOk = true)
      ∧ (∀ b, compute_last_updated P b = .ok none →
          days_in_current_stage P b = .ok (-1))
      ∧ (∀ xs : List Val, (∀ a ∈ xs, wfAttachment a = true) →
          (safe_branch_from_attachments P (.list xs)).isOk = true)
      ∧ (∀ e, wfEvent e = true →
          (before_after e).isOk = true ∧ (pull_stage_name e).isOk = true) := by
  refine ⟨?_, ?_, ?_, ?_, ?_, ?_⟩
  · intro ss name hss
    rw [stage_assignee_for_name]
    have hiter : (Val.list ss).iter = .ok ss := rfl
    rw [hiter]
    simp only [pym_bind_ok]
    exact assignee_scan_isOk hss _
  · intro b hb
    rw [current_stage_assignee_eq hb]
    exact assignee_scan_isOk (bundleStages_wf hb) _
  · intro b hb
    exact compute_last_updated_isOk hP hb
  · intro b hb
    exact days_in_current_stage_neg_one hb
  · intro xs hxs
    exact safe_branch_isOk hP hxs
  · intro e he
    exact ⟨before_after_isOk he, pull_stage_name_isOk he⟩

/-- Witness for C3 (amended) at concrete well-formed inputs. -/
theorem transforms_total_on_wf_witness :
    (stage_assignee_for_name (.list [.dict [("stage", .dict [("name", .str "Y")])]]) "Y").isOk
        = true
      ∧ (current_stage_assignee (.dict [("stage", .null)])).isOk = true
      ∧ (compute_last_updated (fun _ => none) (.dict [("attachments", .list [])])).isOk = true
      ∧ days_in_current_stage (fun _ => none) (.dict []) = .ok (-1)
      ∧ (safe_branch_from_attachments (fun _ => none) (.list [.dict []])).isOk = true
      ∧ (before_after (.dict [])).isOk = true
      ∧ (pull_stage_name (.dict [])).isOk = true := by
  have h := transforms_total_on_wf (fun _ => none)
    (fun v p hvp => Option.noConfusion hvp)
  refine ⟨h.1 _ "Y" (by decide), h.2.1 _ (by decide), h.2.2.1 _ (by decide),
    h.2.2.2.1 _ rfl, h.2.2.2.2.1 _ (by decide),
    (h.2.2.2.2.2 _ (by decide)).1, (h.2.2.2.2.2 _ (by decide)).2⟩

/-! ## Claim C2 — days in current stage -/

/-- Claim C2 (code bug): `days_in_current_stage` does return `-1` exactly
when `compute_last_updated` yields nothing, but on the other branch —
bundle with a parseable `createdAt` — line 49 evaluates
`pd.Timestamp.utcnow().tz_localize("UTC")`, and since
`pd.Timestamp.utcnow()` is already timezone-aware, `tz_localize` raises
`TypeError("Already tz-aware, use tz_convert to convert.")`: the function
raises instead of returning the whole-day count. -/
theorem days_in_current_stage_bug :
    days_in_current_stage
        (fun v => match v with
          | .str "2023-01-06T00:00:00Z" => some (Pd.ts 1672963200)
          | _ => none) (.dict []) = .ok (-1)
      ∧ compute_last_updated
          (fun v => match v with
            | .str "2023-01-06T00:00:00Z" => some (Pd.ts 1672963200)
            | _ => none) (.dict [("createdAt", .str "2023-01-06T00:00:00Z")])
        = .ok (some (Pd.ts 1672963200))
      ∧ days_in_current_stage
          (fun v => match v with
            | .str "2023-01-06T00:00:00Z" => some (Pd.ts 1672963200)
            | _ => none) (.dict [("createdAt", .str "2023-01-06T00:00:00Z")])
        = .error () :=
  ⟨rfl, rfl, rfl⟩

end GovExplorer
